import Mathlib

/-!
Verification of the variant-scraper repository against its specification.

The development shallowly embeds the Python modules
`ecommerce/scraper/alpha_engine.py` (URL canonicalization),
`ecommerce/scraper/moteur_variante.py` (variant discovery engine) and
`ecommerce/scraper/scraper_images.py` (bounded image fetch pipeline)
as executable Lean definitions, and proves or refutes the frozen claims
about them.

Modelling conventions:
* Python strings are Lean `String`s; character-level work uses `List Char`.
* `str.split(sep)` for a one-character separator is `splitCh`;
  indexing `[0]` and `[-1]` are `pyHead0` and `pyLast`.
* Browser DOM state is a passive record of the attribute values the code
  reads; nondeterministic effects (network success, thread completion
  order, `random.choice`, `OSError` on rename) are explicit oracle
  parameters.
* Machine floats, real time and genuine parallel interleavings are not
  modelled; thread-pool completion order is an explicit permutation.
-/

set_option autoImplicit false

deriving instance DecidableEq for Except

/-! ## Generic string helpers shared by the embedded modules -/

/-- `s.split(c)` for a single-character separator, Python semantics:
the result is never empty, and separators at the ends yield empty parts. -/
def splitCh (c : Char) : List Char → List (List Char)
  | [] => [[]]
  | x :: xs =>
    let r := splitCh c xs
    if x = c then [] :: r
    else
      match r with
      | [] => [[x]]
      | h :: t => (x :: h) :: t

/-- Python `lst[0]` on a split result (split results are never empty). -/
def pyHead0 : List (List Char) → List Char
  | [] => []
  | x :: _ => x

/-- Python `lst[-1]` on a split result (split results are never empty). -/
def pyLast : List (List Char) → List Char
  | [] => []
  | [x] => x
  | _ :: x :: xs => pyLast (x :: xs)

/-- Python regex `\w` over ASCII: letters, digits and underscore. -/
def isWordChar (c : Char) : Bool := c.isAlphanum || c = '_'

/-- Core of the size-suffix stripper.  `l` is the whole filename,
`extR` the reversed extension candidate (characters after the last dot,
reversed), and the third argument is the rest of the reversed filename,
whose head, when present, is the final dot. -/
def stripCore (l extR : List Char) : List Char → List Char
  | [] => l
  | _ :: stemR =>
    if extR.isEmpty || !(extR.all isWordChar) then l
    else
      match stemR.drop (stemR.takeWhile (fun c => c.isDigit)).length with
      | '-' :: preR =>
        if (stemR.takeWhile (fun c => c.isDigit)).isEmpty then l
        else preR.reverse ++ '.' :: extR.reverse
      | _ => l

/-- `re.sub(r"-\d+(?=\.\w+$)", "", fn)` over `List Char`: remove one
trailing `-<digits>` run standing immediately before the final
`.<wordchars>` extension.  Non-ASCII word characters and digits are not
modelled; all inputs of interest are ASCII. -/
def stripSizeSuffixL (l : List Char) : List Char :=
  stripCore l (l.reverse.takeWhile (fun c => c ≠ '.'))
    (l.reverse.drop (l.reverse.takeWhile (fun c => c ≠ '.')).length)

/-- Python whitespace for `\s` and `str.strip()`, ASCII range. -/
def isPySpace (c : Char) : Bool :=
  c = ' ' || c = '\t' || c = '\n' || c = '\r' || c = '\x0b' || c = '\x0c'

/-- Python `str.strip()` over `List Char` (ASCII whitespace). -/
def pyStrip (l : List Char) : List Char :=
  ((l.dropWhile isPySpace).reverse.dropWhile isPySpace).reverse

/-- Python `str.strip()` on strings. -/
def pyStripStr (s : String) : String := (pyStrip s.toList).asString

/-- Kernel-reducible list prefix test. -/
def isPrefixL : List Char → List Char → Bool
  | [], _ => true
  | _ :: _, [] => false
  | p :: ps, x :: xs => p == x && isPrefixL ps xs

/-- Python `s.startswith(pre)` (kernel-reducible form). -/
def pyStartsWith (s pre : String) : Bool := isPrefixL pre.toList s.toList

/-- Python `s.lower()` over ASCII. -/
def lowerStr (s : String) : String := (s.toList.map Char.toLower).asString

/-- Python `s.rstrip("/")` over `List Char`. -/
def rstripSlashL (l : List Char) : List Char :=
  (l.reverse.dropWhile (fun c => c = '/')).reverse

/-- Python `s.strip("/")` over `List Char`. -/
def stripSlashL (l : List Char) : List Char :=
  rstripSlashL (l.dropWhile (fun c => c = '/'))

/-! ## `alpha_engine.py`: `AlphaEngine._build_wp_url` -/

namespace AlphaEngine

/-- Filename derivation step of `_build_wp_url`:
`filename = img_url.split("/")[-1].split("?")[0]` followed by
`re.sub(r"-\d+(?=\.\w+$)", "", filename)`. -/
def deriveFilenameL (u : List Char) : List Char :=
  stripSizeSuffixL (pyHead0 (splitCh '?' (pyLast (splitCh '/' u))))

/-- String-level wrapper of `deriveFilenameL`. -/
def deriveFilename (u : String) : String :=
  (deriveFilenameL u.toList).asString

/-- `AlphaEngine._build_wp_url(domain, date_path, img_url)`:
compose `{domain}/wp-content/uploads/{date_path}/{filename}` after
`domain.rstrip("/")` and `date_path.strip("/")`. -/
def _build_wp_url (domain datePath imgUrl : String) : String :=
  (rstripSlashL domain.toList).asString ++ "/wp-content/uploads/" ++
    (stripSlashL datePath.toList).asString ++ "/" ++ deriveFilename imgUrl

end AlphaEngine

/-! ## Lemmas about the split primitives -/

theorem splitCh_ne_nil (c : Char) (l : List Char) : splitCh c l ≠ [] := by
  cases l with
  | nil => simp [splitCh]
  | cons x xs =>
    simp only [splitCh]
    by_cases hx : x = c
    · simp [hx]
    · simp only [hx, if_false]
      cases splitCh c xs <;> simp

theorem splitCh_of_not_mem {c : Char} {l : List Char} (h : c ∉ l) :
    splitCh c l = [l] := by
  induction l with
  | nil => rfl
  | cons x xs ih =>
    have hx : ¬ x = c := fun he => h (he ▸ List.mem_cons_self x xs)
    have hxs : c ∉ xs := fun hm => h (List.mem_cons_of_mem x hm)
    simp only [splitCh, hx, if_false, ih hxs]

theorem pyLast_cons_ne {x : List Char} {t : List (List Char)} (h : t ≠ []) :
    pyLast (x :: t) = pyLast t := by
  cases t with
  | nil => exact absurd rfl h
  | cons y ys => rfl

theorem two_le_length_splitCh {c : Char} {l : List Char} (h : c ∈ l) :
    2 ≤ (splitCh c l).length := by
  induction l with
  | nil => cases h
  | cons x xs ih =>
    simp only [splitCh]
    by_cases hx : x = c
    · have h1 := splitCh_ne_nil c xs
      simp only [hx, if_true, List.length_cons]
      have : 1 ≤ (splitCh c xs).length := by
        cases hsp : splitCh c xs with
        | nil => exact absurd hsp h1
        | cons a b => simp
      omega
    · have hxs : c ∈ xs := by
        rcases List.mem_cons.mp h with h' | h'
        · exact absurd h'.symm hx
        · exact h'
      have h2 := ih hxs
      simp only [hx, if_false]
      cases hsp : splitCh c xs with
      | nil => exact absurd hsp (splitCh_ne_nil c xs)
      | cons a b =>
        rw [hsp] at h2
        simpa using h2

theorem pyLast_splitCh_append (c : Char) (A B : List Char) :
    pyLast (splitCh c (A ++ c :: B)) = pyLast (splitCh c B) := by
  induction A with
  | nil =>
    simp only [List.nil_append, splitCh, if_true]
    exact pyLast_cons_ne (splitCh_ne_nil c B)
  | cons y ys ih =>
    simp only [List.cons_append, splitCh, List.append_eq]
    by_cases hy : y = c
    · simp only [hy, if_true]
      rw [pyLast_cons_ne (splitCh_ne_nil c (ys ++ c :: B))]
      exact ih
    · simp only [hy, if_false]
      have hmem : c ∈ ys ++ c :: B := List.mem_append.mpr (Or.inr (List.mem_cons_self c B))
      have hlen := two_le_length_splitCh hmem
      cases hsp : splitCh c (ys ++ c :: B) with
      | nil => exact absurd hsp (splitCh_ne_nil c _)
      | cons h t =>
        rw [hsp] at hlen ih
        cases t with
        | nil => simp at hlen
        | cons z zs =>
          rw [pyLast_cons_ne (by simp : (z :: zs : List (List Char)) ≠ [])]
          rw [pyLast_cons_ne (by simp : (z :: zs : List (List Char)) ≠ [])] at ih
          exact ih

theorem pyHead0_splitCh (c : Char) (l : List Char) :
    pyHead0 (splitCh c l) = l.takeWhile (fun x => x ≠ c) := by
  induction l with
  | nil => rfl
  | cons x xs ih =>
    simp only [splitCh]
    by_cases hx : x = c
    · subst hx
      simp [pyHead0, List.takeWhile_cons]
    · simp only [hx, if_false]
      cases hsp : splitCh c xs with
      | nil => exact absurd hsp (splitCh_ne_nil c xs)
      | cons h t =>
        rw [hsp] at ih
        simp only [pyHead0] at ih
        simp [pyHead0, List.takeWhile_cons, hx, ih]

theorem mem_of_mem_seg_splitCh {c : Char} {l seg : List Char}
    (hseg : seg ∈ splitCh c l) {x : Char} (hx : x ∈ seg) : x ∈ l ∧ x ≠ c := by
  induction l generalizing seg with
  | nil =>
    simp only [splitCh, List.mem_singleton] at hseg
    subst hseg
    cases hx
  | cons y ys ih =>
    simp only [splitCh] at hseg
    by_cases hy : y = c
    · simp only [hy, if_true, List.mem_cons] at hseg
      rcases hseg with h | h
      · subst h; cases hx
      · have := ih h hx
        exact ⟨List.mem_cons_of_mem y this.1, this.2⟩
    · simp only [hy, if_false] at hseg
      cases hsp : splitCh c ys with
      | nil => exact absurd hsp (splitCh_ne_nil c ys)
      | cons h t =>
        rw [hsp] at hseg
        simp only [List.mem_cons] at hseg
        rcases hseg with h1 | h1
        · subst h1
          rcases List.mem_cons.mp hx with h2 | h2
          · subst h2; exact ⟨List.mem_cons_self x ys, hy⟩
          · have := ih (by rw [hsp]; exact List.mem_cons_self h t) h2
            exact ⟨List.mem_cons_of_mem y this.1, this.2⟩
        · have := ih (by rw [hsp]; exact List.mem_cons_of_mem h h1) hx
          exact ⟨List.mem_cons_of_mem y this.1, this.2⟩

theorem pyLast_mem {l : List (List Char)} (h : l ≠ []) : pyLast l ∈ l := by
  induction l with
  | nil => exact absurd rfl h
  | cons x xs ih =>
    cases xs with
    | nil => simp [pyLast]
    | cons y ys =>
      rw [pyLast_cons_ne (by simp)]
      exact List.mem_cons_of_mem x (ih (by simp))

theorem mem_takeWhile_and {p : Char → Bool} {l : List Char} {x : Char}
    (h : x ∈ l.takeWhile p) : x ∈ l ∧ p x = true := by
  induction l with
  | nil => cases h
  | cons y ys ih =>
    rw [List.takeWhile_cons] at h
    by_cases hy : p y = true
    · simp only [hy, if_true, List.mem_cons] at h
      rcases h with h | h
      · subst h; exact ⟨List.mem_cons_self x ys, hy⟩
      · have := ih h
        exact ⟨List.mem_cons_of_mem y this.1, this.2⟩
    · simp only [Bool.not_eq_true] at hy
      simp [hy] at h

theorem drop_length_takeWhile (p : Char → Bool) (l : List Char) :
    l.drop (l.takeWhile p).length = l.dropWhile p := by
  induction l with
  | nil => rfl
  | cons a as ih =>
    rw [List.takeWhile_cons, List.dropWhile_cons]
    by_cases ha : p a = true
    · rw [if_pos ha, if_pos ha, List.length_cons, List.drop_succ_cons]
      exact ih
    · rw [if_neg ha, if_neg ha]
      rfl

theorem dropWhile_head_false {p : Char → Bool} {l : List Char} {y : Char}
    {ys : List Char} (h : l.dropWhile p = y :: ys) : p y = false := by
  induction l with
  | nil => simp [List.dropWhile] at h
  | cons a as ih =>
    rw [List.dropWhile_cons] at h
    by_cases ha : p a = true
    · rw [if_pos ha] at h; exact ih h
    · rw [if_neg ha] at h
      injection h with h1 h2
      subst h1
      simpa using ha

theorem mem_stripSizeSuffixL {l : List Char} {x : Char}
    (h : x ∈ stripSizeSuffixL l) : x ∈ l := by
  unfold stripSizeSuffixL stripCore at h
  split at h
  · exact h
  rename_i d0 stemR hd
  split at h
  · exact h
  have hstem : ∀ y ∈ stemR, y ∈ l := by
    intro y hy
    have h1 : y ∈ l.reverse.drop (l.reverse.takeWhile (fun c => c ≠ '.')).length := by
      rw [hd]; exact List.mem_cons_of_mem d0 hy
    exact List.mem_reverse.mp (List.mem_of_mem_drop h1)
  have hdot : d0 = '.' := by
    rw [drop_length_takeWhile] at hd
    have := dropWhile_head_false hd
    simpa using this
  have hdotl : ('.' : Char) ∈ l := by
    have h1 : d0 ∈ l.reverse.drop (l.reverse.takeWhile (fun c => c ≠ '.')).length := by
      rw [hd]; exact List.mem_cons_self d0 stemR
    exact hdot ▸ List.mem_reverse.mp (List.mem_of_mem_drop h1)
  have hext : ∀ y ∈ l.reverse.takeWhile (fun c => c ≠ '.'), y ∈ l := by
    intro y hy
    exact List.mem_reverse.mp (mem_takeWhile_and hy).1
  split at h
  · rename_i pre hds
    split at h
    · exact h
    rcases List.mem_append.mp h with h1 | h1
    · have h2 : x ∈ pre := List.mem_reverse.mp h1
      have h3 : x ∈ stemR :=
        List.mem_of_mem_drop (hds ▸ List.mem_cons_of_mem '-' h2)
      exact hstem x h3
    · rcases List.mem_cons.mp h1 with h2 | h2
      · exact h2 ▸ hdotl
      · exact hext x (List.mem_reverse.mp h2)
  · exact h

theorem takeWhile_eq_self_of_all {p : Char → Bool} {l : List Char}
    (h : ∀ x ∈ l, p x = true) : l.takeWhile p = l := by
  induction l with
  | nil => rfl
  | cons a as ih =>
    rw [List.takeWhile_cons, if_pos (h a (List.mem_cons_self a as))]
    rw [ih (fun x hx => h x (List.mem_cons_of_mem a hx))]

theorem dropWhile_ne_nil_of_mem {c : Char} {l : List Char} (h : c ∈ l) :
    l.dropWhile (fun x => x ≠ c) ≠ [] := by
  intro hnil
  have h1 : l.takeWhile (fun x => x ≠ c) = l := by
    have h2 := List.takeWhile_append_dropWhile (p := fun x => x ≠ c) (l := l)
    rw [hnil, List.append_nil] at h2
    exact h2
  have h2 := (mem_takeWhile_and (h1.symm ▸ h)).2
  simp at h2

theorem pyLast_splitCh_eq_rev (c : Char) (l : List Char) :
    pyLast (splitCh c l) = (l.reverse.takeWhile (fun x => x ≠ c)).reverse := by
  by_cases hc : c ∈ l
  · have hrev : c ∈ l.reverse := List.mem_reverse.mpr hc
    cases hD : l.reverse.dropWhile (fun x => x ≠ c) with
    | nil => exact absurd hD (dropWhile_ne_nil_of_mem hrev)
    | cons d ds =>
      have hd : d = c := by
        have h2 := dropWhile_head_false hD
        simpa using h2
      have hsplit : l.reverse = l.reverse.takeWhile (fun x => x ≠ c) ++ c :: ds := by
        conv_lhs =>
          rw [← List.takeWhile_append_dropWhile (p := fun x => x ≠ c) (l := l.reverse)]
        rw [hD, hd]
      have hl : l = ds.reverse ++ c :: (l.reverse.takeWhile (fun x => x ≠ c)).reverse := by
        have h3 := congrArg List.reverse hsplit
        rw [List.reverse_reverse, List.reverse_append, List.reverse_cons,
          List.append_assoc] at h3
        simpa using h3
      have hnA : c ∉ (l.reverse.takeWhile (fun x => x ≠ c)).reverse := by
        intro hmem
        have h4 := (mem_takeWhile_and (List.mem_reverse.mp hmem)).2
        simp at h4
      conv_lhs => rw [hl]
      rw [pyLast_splitCh_append, splitCh_of_not_mem hnA]
      rfl
  · have hall : ∀ x ∈ l.reverse, (fun x => decide (x ≠ c)) x = true := by
      intro x hx
      have hxl : x ∈ l := List.mem_reverse.mp hx
      exact decide_eq_true (fun he => hc (he ▸ hxl))
    rw [splitCh_of_not_mem hc, takeWhile_eq_self_of_all hall, List.reverse_reverse]
    rfl

/-! ## Section for claims C5 and C6: the URL canonicalization -/

/-- Spec-side filename derivation, written from the spec words with
reverse/takeWhile primitives instead of split plus indexing: the final
path segment (the characters after the last slash), then the part
before any `?`, then the size-suffix strip. -/
def specFilenameL (u : List Char) : List Char :=
  stripSizeSuffixL
    ((u.reverse.takeWhile (fun c => c ≠ '/')).reverse.takeWhile (fun c => c ≠ '?'))

/-- Spec-side publish-URL composition as amended: the domain keeps a
leading slash (only trailing slashes stripped), the date path is
stripped on both sides. -/
def specPublishUrl (domain datePath u : String) : String :=
  (rstripSlashL domain.toList).asString ++ "/wp-content/uploads/" ++
    (stripSlashL datePath.toList).asString ++ "/" ++ (specFilenameL u.toList).asString

/-- Publish-URL composition exactly as claim C6 words it: leading and
trailing slashes stripped from BOTH the domain and the date path. -/
def c6ClaimUrl (domain datePath u : String) : String :=
  (stripSlashL domain.toList).asString ++ "/wp-content/uploads/" ++
    (stripSlashL datePath.toList).asString ++ "/" ++ (specFilenameL u.toList).asString

theorem no_slash_deriveFilenameL (u : List Char) :
    '/' ∉ AlphaEngine.deriveFilenameL u := by
  intro h
  unfold AlphaEngine.deriveFilenameL at h
  have h1 := mem_stripSizeSuffixL h
  rw [pyHead0_splitCh] at h1
  have h2 := (mem_takeWhile_and h1).1
  have h3 := mem_of_mem_seg_splitCh (pyLast_mem (splitCh_ne_nil '/' u)) h2
  exact absurd rfl h3.2

theorem no_query_deriveFilenameL (u : List Char) :
    '?' ∉ AlphaEngine.deriveFilenameL u := by
  intro h
  unfold AlphaEngine.deriveFilenameL at h
  have h1 := mem_stripSizeSuffixL h
  rw [pyHead0_splitCh] at h1
  have h2 := (mem_takeWhile_and h1).2
  simp at h2

theorem data_asString (l : List Char) : (l.asString).data = l := rfl

theorem build_wp_url_toList (d p u : String) :
    (AlphaEngine._build_wp_url d p u).toList
      = (rstripSlashL d.toList ++ ("/wp-content/uploads/" : String).data
          ++ stripSlashL p.toList)
        ++ '/' :: AlphaEngine.deriveFilenameL u.toList := by
  show (AlphaEngine._build_wp_url d p u).data = _
  unfold AlphaEngine._build_wp_url AlphaEngine.deriveFilename
  simp only [String.data_append, data_asString]
  simp [List.append_assoc]

theorem pyLast_singleton (x : List Char) : pyLast [x] = x := rfl

theorem pyHead0_singleton (x : List Char) : pyHead0 [x] = x := rfl

theorem deriveFilename_build (d p u : String) :
    AlphaEngine.deriveFilenameL (AlphaEngine._build_wp_url d p u).toList
      = stripSizeSuffixL (AlphaEngine.deriveFilenameL u.toList) := by
  rw [build_wp_url_toList]
  have hns := no_slash_deriveFilenameL u.toList
  have hnq := no_query_deriveFilenameL u.toList
  set fn := AlphaEngine.deriveFilenameL u.toList with hfndef
  show stripSizeSuffixL (pyHead0 (splitCh '?' (pyLast (splitCh '/' _)))) = _
  rw [pyLast_splitCh_append, splitCh_of_not_mem hns, pyLast_singleton,
    splitCh_of_not_mem hnq, pyHead0_singleton]

theorem buildWpUrl_congr {d p x y : String}
    (h : AlphaEngine.deriveFilename x = AlphaEngine.deriveFilename y) :
    AlphaEngine._build_wp_url d p x = AlphaEngine._build_wp_url d p y := by
  unfold AlphaEngine._build_wp_url
  rw [h]

/-- Claim C5 counterexample: `_build_wp_url` is not idempotent.  For the
source URL `https://ex.com/img/a-12-34.png` one application derives the
filename `a-12.png` (stripping `-34`), and a second application over the
produced URL strips `-12` as a further size suffix, changing the
result. -/
theorem c5_counterexample :
    AlphaEngine._build_wp_url "https://wp" "2024/05" "https://ex.com/img/a-12-34.png"
        = "https://wp/wp-content/uploads/2024/05/a-12.png"
    ∧ AlphaEngine._build_wp_url "https://wp" "2024/05"
          (AlphaEngine._build_wp_url "https://wp" "2024/05" "https://ex.com/img/a-12-34.png")
        = "https://wp/wp-content/uploads/2024/05/a.png"
    ∧ ("https://wp/wp-content/uploads/2024/05/a.png" : String)
        ≠ "https://wp/wp-content/uploads/2024/05/a-12.png" :=
  ⟨by decide, by decide, by decide⟩

/-- Claim C5 (amended): one application of `_build_wp_url` to its own
output re-derives the previous filename and strips at most one more
`-<digits>` size suffix; whenever the derived filename is a fixed point
of the size-suffix stripper (no remaining `-<digits>` suffix before the
extension), applying `_build_wp_url` to its own output changes
nothing. -/
theorem c5_amended (d p u : String) :
    AlphaEngine.deriveFilename (AlphaEngine._build_wp_url d p u)
        = (stripSizeSuffixL (AlphaEngine.deriveFilenameL u.toList)).asString
    ∧ (stripSizeSuffixL (AlphaEngine.deriveFilenameL u.toList)
          = AlphaEngine.deriveFilenameL u.toList →
        AlphaEngine._build_wp_url d p (AlphaEngine._build_wp_url d p u)
          = AlphaEngine._build_wp_url d p u) := by
  have hkey := deriveFilename_build d p u
  constructor
  · unfold AlphaEngine.deriveFilename
    rw [hkey]
  · intro hfix
    refine buildWpUrl_congr ?_
    unfold AlphaEngine.deriveFilename
    rw [hkey, hfix]

/-- Witness for claim C5 (amended) at a size-suffix-free input. -/
theorem c5_witness :
    AlphaEngine._build_wp_url "https://wp" "2024/05"
        (AlphaEngine._build_wp_url "https://wp" "2024/05" "https://e/img/photo.png")
      = AlphaEngine._build_wp_url "https://wp" "2024/05" "https://e/img/photo.png" :=
  (c5_amended "https://wp" "2024/05" "https://e/img/photo.png").2 (by decide)

/-- Claim C6 counterexample: the code strips only trailing slashes from
the domain (`rstrip("/")`), so a domain with a leading slash keeps it,
while the claim predicts it stripped. -/
theorem c6_counterexample :
    AlphaEngine._build_wp_url "/wp" "2024/05" "https://e/a.png"
        = "/wp/wp-content/uploads/2024/05/a.png"
    ∧ c6ClaimUrl "/wp" "2024/05" "https://e/a.png"
        = "wp/wp-content/uploads/2024/05/a.png"
    ∧ AlphaEngine._build_wp_url "/wp" "2024/05" "https://e/a.png"
        ≠ c6ClaimUrl "/wp" "2024/05" "https://e/a.png" :=
  ⟨by decide, by decide, by decide⟩

/-- Claim C6 (amended): `_build_wp_url` composes
`{domain}/wp-content/uploads/{date_path}/{filename}` where the filename
is the final slash-segment of the source URL with any trailing `?query`
dropped and one `-<digits>` size suffix stripped, the domain has only
its TRAILING slashes stripped, and the date path is stripped on both
sides; the end-to-end scenario of the spec holds. -/
theorem c6_refinement (d p u : String) :
    AlphaEngine._build_wp_url d p u = specPublishUrl d p u
    ∧ AlphaEngine._build_wp_url "https://wp/" "2024/05"
          "https://ex.com/img/bob-ficelle-outdoor-beige-453.png?x=1"
        = "https://wp/wp-content/uploads/2024/05/bob-ficelle-outdoor-beige.png" := by
  constructor
  · have hfn : AlphaEngine.deriveFilenameL u.toList = specFilenameL u.toList := by
      unfold AlphaEngine.deriveFilenameL specFilenameL
      rw [pyLast_splitCh_eq_rev, pyHead0_splitCh]
    unfold AlphaEngine._build_wp_url specPublishUrl AlphaEngine.deriveFilename
    rw [hfn]
  · decide

/-! ## `moteur_variante.py`: `extract_variants_with_images`

The browser page is modelled as a passive record.  Each variant control
carries the attribute values the code reads (`value`, `checked`) plus an
oracle `afterClick`: the `src` the selected gallery image eventually
shows after a programmatic click, or `none` when the gallery never
updates (the `WebDriverWait(driver, 5)` poll then times out).  The wait
condition is `src != old_src`, so a click whose eventual `src` equals
the captured prior value also times out. -/

/-- One `input[type=radio].sr-only` variant control. -/
structure VInput where
  val : Option String
  checked : Option String
  afterClick : Option String
deriving DecidableEq, Repr

/-- A product page as seen by `extract_variants_with_images`:
the `h1` text when present, the `src` of the selected gallery image
element when present, and the controls of the variant container when
the container is present. -/
structure VPage where
  h1 : Option String
  gallery : Option String
  container : Option (List VInput)
deriving Repr

/-- Errors of the engine: `ValueError` for a non-http(s) URL, the
page-load `TimeoutException`, `NoSuchElementException`, and the
selection-wait `TimeoutException`, which carries the message that
`WebDriverWait.until` was given (the code passes none, so it is
always the empty string). -/
inductive ScrapeErr where
  | invalidUrl
  | pageLoadTimeout
  | noSuchElement
  | selectionTimeout (msg : String)
deriving DecidableEq, Repr

/-- `url.lower().startswith(("http://", "https://"))`. -/
def validUrl (url : String) : Bool :=
  pyStartsWith (lowerStr url) "http://" || pyStartsWith (lowerStr url) "https://"

/-- Normalization step of the engine loop: protocol-relative URLs get
`https:` prefixed. -/
def normSrc (s : String) : String :=
  if pyStartsWith s "//" then "https:" ++ s else s

/-- `name in results` on the ordered mapping. -/
def hasKey (m : List (String × String)) (k : String) : Bool :=
  m.any (fun e => e.1 == k)

/-- The per-control loop of `extract_variants_with_images` (lines
60-80): skip empty and already-seen values, read the selected gallery
image `src` as `old_src`, click and wait for a change when the control
is not checked, normalize, and append to the ordered mapping. -/
def processInputs : List VInput → Option String → List (String × String) →
    Except ScrapeErr (List (String × String))
  | [], _, acc => .ok acc
  | inp :: rest, gallery, acc =>
    match inp.val with
    | none => processInputs rest gallery acc
    | some name =>
      if name = "" || hasKey acc name then processInputs rest gallery acc
      else
        match gallery with
        | none => .error .noSuchElement
        | some old =>
          match inp.checked with
          | some _ => processInputs rest (some old) (acc ++ [(name, normSrc old)])
          | none =>
            match inp.afterClick with
            | none => .error (.selectionTimeout "")
            | some s =>
              if s = old then .error (.selectionTimeout "")
              else processInputs rest (some s) (acc ++ [(name, normSrc s)])

/-- `extract_variants_with_images(url)` over a modelled page:
URL-scheme check, wait for `h1` (timeout when absent), read and trim
the title, find the variant container (`NoSuchElementException` when
absent), then run the per-control loop. -/
def extract_variants_with_images (url : String) (page : VPage) :
    Except ScrapeErr (String × List (String × String)) :=
  if !validUrl url then .error .invalidUrl
  else
    match page.h1 with
    | none => .error .pageLoadTimeout
    | some t =>
      match page.container with
      | none => .error .noSuchElement
      | some inputs =>
        match processInputs inputs page.gallery [] with
        | .ok m => .ok (pyStripStr t, m)
        | .error e => .error e

/-! ## Claims C1 and C9: failure semantics of the variant engine -/

theorem processInputs_timeout_msg :
    ∀ (is : List VInput) (g : Option String) (acc : List (String × String)) (msg : String),
      processInputs is g acc = .error (.selectionTimeout msg) → msg = "" := by
  intro is
  induction is with
  | nil => intro g acc msg h; simp [processInputs] at h
  | cons i rest ih =>
    intro g acc msg h
    cases hv : i.val with
    | none =>
      simp only [processInputs, hv] at h
      exact ih g acc msg h
    | some name =>
      simp only [processInputs, hv] at h
      split at h
      · exact ih g acc msg h
      · split at h
        · simp at h
        · split at h
          · exact ih _ _ msg h
          · split at h
            · simp only [Except.error.injEq, ScrapeErr.selectionTimeout.injEq] at h
              exact h.symm
            · split at h
              · simp only [Except.error.injEq, ScrapeErr.selectionTimeout.injEq] at h
                exact h.symm
              · exact ih _ _ msg h

/-- Claim C1 counterexample: when the variant `Blue` stalls (the
gallery image never changes after its selection is triggered), the
engine raises the selenium `TimeoutException` of `WebDriverWait.until`
with its default empty message: the raised error does not carry the
name of the stalled variant. -/
theorem c1_counterexample :
    extract_variants_with_images "https://x"
        ⟨some "T", some "red.png", some [⟨some "Blue", none, none⟩]⟩
      = .error (.selectionTimeout "")
    ∧ ScrapeErr.selectionTimeout "" ≠ ScrapeErr.selectionTimeout "Blue" :=
  ⟨by decide, by decide⟩

/-- Claim C1 (amended): when a variant selection stalls the whole
extraction aborts with a selection-timeout error and no partial
mapping is returned (the result type admits no partial result on
error), but the error is NOT tagged with the variant name: the
message of any selection-timeout error the engine can raise is the
empty string. -/
theorem c1_amended :
    (extract_variants_with_images "https://x"
        ⟨some "T", some "red.png", some [⟨some "Blue", none, none⟩]⟩
      = .error (.selectionTimeout ""))
    ∧ ∀ (url : String) (page : VPage) (msg : String),
        extract_variants_with_images url page = .error (.selectionTimeout msg) →
          msg = "" := by
  refine ⟨by decide, ?_⟩
  intro url page msg h
  unfold extract_variants_with_images at h
  split at h
  · simp at h
  · split at h
    · simp at h
    · split at h
      · simp at h
      · split at h
        · simp at h
        · rename_i e heq
          simp only [Except.error.injEq] at h
          subst h
          exact processInputs_timeout_msg _ _ _ msg heq

/-- Witness for claim C1 (amended): the selection-timeout hypothesis is
satisfiable at a concrete stalled page, and the carried message there
is the empty string. -/
theorem c1_witness : ("" : String) = "" :=
  c1_amended.2 "https://x"
    ⟨some "T", some "red.png", some [⟨some "Blue", none, none⟩]⟩ "" (by decide)

/-- Claim C9: a page whose title element is present but whose variant
container holds no control elements yields the trimmed title together
with an empty mapping, not an error. -/
theorem c9_no_variants (url : String) (page : VPage) (t : String)
    (h1 : validUrl url = true) (h2 : page.h1 = some t)
    (h3 : page.container = some []) :
    extract_variants_with_images url page = .ok (pyStripStr t, []) := by
  simp [extract_variants_with_images, h1, h2, h3, processInputs]

/-- Witness for claim C9 at a concrete page with zero variant
controls. -/
theorem c9_witness :
    extract_variants_with_images "https://x" ⟨some " T ", none, some []⟩
      = .ok (pyStripStr " T ", []) :=
  c9_no_variants "https://x" ⟨some " T ", none, some []⟩ " T " (by decide) rfl rfl

/-! ## Claim C2: deduplication, empty-value skipping, encounter order -/

/-- The controls that actually get processed: drop controls with an
absent or empty `value` and controls whose `value` was already seen. -/
def effControls (seen : List String) : List VInput → List VInput
  | [] => []
  | i :: is =>
    match i.val with
    | none => effControls seen is
    | some v =>
      if v = "" || seen.contains v then effControls seen is
      else i :: effControls (v :: seen) is

theorem str_beq_comm (a b : String) : (a == b) = (b == a) := by
  by_cases h : a = b
  · subst h; rfl
  · have h1 : (a == b) = false := by simpa using h
    have h2 : (b == a) = false := by simpa using (Ne.symm h)
    rw [h1, h2]

theorem contains_cons_str (v x : String) (seen : List String) :
    (v :: seen).contains x = (x == v || seen.contains x) := rfl

theorem hasKey_append (acc : List (String × String)) (v s x : String) :
    hasKey (acc ++ [(v, s)]) x = (hasKey acc x || (v == x)) := by
  unfold hasKey
  rw [List.any_append]
  simp

theorem seen_step {seen : List String} {acc : List (String × String)}
    (hseen : ∀ x, seen.contains x = hasKey acc x) (v s : String) :
    ∀ x, (v :: seen).contains x = hasKey (acc ++ [(v, s)]) x := by
  intro x
  rw [contains_cons_str, hasKey_append, hseen x, str_beq_comm x v, Bool.or_comm]

theorem processInputs_eff :
    ∀ (is : List VInput) (g : Option String) (acc : List (String × String))
      (seen : List String),
      (∀ x, seen.contains x = hasKey acc x) →
      processInputs is g acc = processInputs (effControls seen is) g acc := by
  intro is
  induction is with
  | nil => intro g acc seen hseen; rfl
  | cons i rest ih =>
    intro g acc seen hseen
    cases hv : i.val with
    | none =>
      simp only [processInputs, effControls, hv]
      exact ih g acc seen hseen
    | some v =>
      simp only [processInputs, effControls, hv]
      by_cases hc : (v = "" || hasKey acc v) = true
      · rw [if_pos hc]
        have hc' : (v = "" || seen.contains v) = true := by rw [hseen v]; exact hc
        rw [if_pos hc']
        exact ih g acc seen hseen
      · rw [if_neg hc]
        have hc' : ¬((v = "" || seen.contains v) = true) := by rw [hseen v]; exact hc
        rw [if_neg hc']
        simp only [processInputs, hv]
        rw [if_neg hc]
        cases g with
        | none => rfl
        | some old =>
          cases hch : i.checked with
          | some s =>
            simp only [hch]
            exact ih _ _ _ (seen_step hseen v (normSrc old))
          | none =>
            simp only [hch]
            cases ha : i.afterClick with
            | none => rfl
            | some s =>
              simp only [ha]
              by_cases hs : s = old
              · rw [if_pos hs, if_pos hs]
              · rw [if_neg hs, if_neg hs]
                exact ih _ _ _ (seen_step hseen v (normSrc s))

theorem processInputs_keys :
    ∀ (is : List VInput) (g : Option String) (acc : List (String × String))
      (seen : List String) (m : List (String × String)),
      (∀ x, seen.contains x = hasKey acc x) →
      processInputs is g acc = .ok m →
      m.map Prod.fst = acc.map Prod.fst ++ (effControls seen is).filterMap VInput.val := by
  intro is
  induction is with
  | nil =>
    intro g acc seen m hseen h
    simp only [processInputs, Except.ok.injEq] at h
    subst h
    simp [effControls]
  | cons i rest ih =>
    intro g acc seen m hseen h
    cases hv : i.val with
    | none =>
      simp only [processInputs, hv] at h
      simp only [effControls, hv]
      exact ih g acc seen m hseen h
    | some v =>
      simp only [processInputs, hv] at h
      simp only [effControls, hv]
      by_cases hc : (v = "" || hasKey acc v) = true
      · rw [if_pos hc] at h
        have hc' : (v = "" || seen.contains v) = true := by rw [hseen v]; exact hc
        rw [if_pos hc']
        exact ih g acc seen m hseen h
      · rw [if_neg hc] at h
        have hc' : ¬((v = "" || seen.contains v) = true) := by rw [hseen v]; exact hc
        rw [if_neg hc']
        cases g with
        | none => simp at h
        | some old =>
          cases hch : i.checked with
          | some s =>
            simp only [hch] at h
            have hrec := ih _ _ _ m (seen_step hseen v (normSrc old)) h
            rw [hrec]
            simp [List.filterMap_cons, hv, List.append_assoc]
          | none =>
            simp only [hch] at h
            cases ha : i.afterClick with
            | none => simp only [ha] at h; simp at h
            | some s =>
              simp only [ha] at h
              by_cases hs : s = old
              · rw [if_pos hs] at h; simp at h
              · rw [if_neg hs] at h
                have hrec := ih _ _ _ m (seen_step hseen v (normSrc s)) h
                rw [hrec]
                simp [List.filterMap_cons, hv, List.append_assoc]

theorem effControls_keys_nodup :
    ∀ (is : List VInput) (seen : List String),
      ((effControls seen is).filterMap VInput.val).Nodup
      ∧ ∀ v ∈ (effControls seen is).filterMap VInput.val, seen.contains v = false := by
  intro is
  induction is with
  | nil =>
    intro seen
    exact ⟨List.nodup_nil, by intro v hv; cases hv⟩
  | cons i rest ih =>
    intro seen
    cases hv : i.val with
    | none => simp only [effControls, hv]; exact ih seen
    | some v =>
      simp only [effControls, hv]
      by_cases hc : (v = "" || seen.contains v) = true
      · rw [if_pos hc]; exact ih seen
      · rw [if_neg hc]
        have hbc : (decide (v = "") || seen.contains v) = false :=
          Bool.eq_false_iff.mpr hc
        have hvne : seen.contains v = false := (Bool.or_eq_false_iff.mp hbc).2
        constructor
        · simp only [List.filterMap_cons, hv]
          rw [List.nodup_cons]
          constructor
          · intro hmem
            have h2 := (ih (v :: seen)).2 v hmem
            rw [contains_cons_str] at h2
            simp at h2
          · exact (ih (v :: seen)).1
        · intro w hw
          simp only [List.filterMap_cons, hv] at hw
          rcases List.mem_cons.mp hw with h1 | h1
          · subst h1; exact hvne
          · have h2 := (ih (v :: seen)).2 w h1
            rw [contains_cons_str] at h2
            exact (Bool.or_eq_false_iff.mp h2).2

/-- Claim C2: duplicate control values are ignored after their first
occurrence (replacing the control list by its first-occurrence
filtering changes nothing, so the image recorded for a value is the
one observed at its first occurrence, and duplicates trigger no click
and no wait), controls with an absent or empty value are skipped, and
the mapping keys are exactly the first occurrences of the non-empty
values in DOM encounter order, without duplicates. -/
theorem c2_dedup (url : String) (page : VPage) :
    (extract_variants_with_images url page
      = extract_variants_with_images url
          ⟨page.h1, page.gallery, page.container.map (effControls [])⟩)
    ∧ ∀ t m, extract_variants_with_images url page = .ok (t, m) →
        (m.map Prod.fst).Nodup
        ∧ ∀ inputs, page.container = some inputs →
            m.map Prod.fst = (effControls [] inputs).filterMap VInput.val := by
  obtain ⟨h1, gal, cont⟩ := page
  constructor
  · cases cont with
    | none => rfl
    | some inputs =>
      show extract_variants_with_images url ⟨h1, gal, some inputs⟩
        = extract_variants_with_images url ⟨h1, gal, some (effControls [] inputs)⟩
      unfold extract_variants_with_images
      by_cases hu : (!validUrl url) = true
      · rw [if_pos hu, if_pos hu]
      · rw [if_neg hu, if_neg hu]
        cases h1 with
        | none => rfl
        | some t =>
          show (match processInputs inputs gal [] with
                | Except.ok m => Except.ok (pyStripStr t, m)
                | Except.error e => Except.error e)
            = (match processInputs (effControls [] inputs) gal [] with
                | Except.ok m => Except.ok (pyStripStr t, m)
                | Except.error e => Except.error e)
          rw [processInputs_eff inputs gal [] [] (fun x => rfl)]
  · intro t m h
    unfold extract_variants_with_images at h
    split at h
    · simp at h
    · split at h
      · simp at h
      · split at h
        · simp at h
        · rename_i inputs hcont
          split at h
          · rename_i m0 heq
            simp only [Except.ok.injEq, Prod.mk.injEq] at h
            have hkeys := processInputs_keys inputs _ [] [] m0 (fun x => rfl) heq
            constructor
            · rw [← h.2, hkeys]
              simp only [List.map_nil, List.nil_append]
              exact (effControls_keys_nodup inputs []).1
            · intro inputs' hinp
              have hii : inputs' = inputs := by
                have h2 := hcont.symm.trans hinp
                injection h2 with h3
                exact h3.symm
              subst hii
              rw [← h.2, hkeys]
              simp
          · simp at h

/-- Witness for claim C2 at a concrete page with a duplicated value
(`Red` twice, the first occurrence selected), an empty value and a
protocol-relative image: the duplicate and the empty control are
dropped and keys come in encounter order. -/
theorem c2_witness :
    (([("Red", "red.png"), ("Blue", "https://cdn/blue.png")].map Prod.fst).Nodup)
    ∧ [("Red", "red.png"), ("Blue", "https://cdn/blue.png")].map Prod.fst
        = (effControls []
            [⟨some "Red", some "true", none⟩, ⟨some "Red", none, some "other.png"⟩,
             ⟨some "", none, none⟩, ⟨some "Blue", none, some "//cdn/blue.png"⟩]).filterMap
            VInput.val := by
  have h := (c2_dedup "https://example.com"
      ⟨some "Title", some "red.png",
       some [⟨some "Red", some "true", none⟩, ⟨some "Red", none, some "other.png"⟩,
             ⟨some "", none, none⟩, ⟨some "Blue", none, some "//cdn/blue.png"⟩]⟩).2
      "Title" [("Red", "red.png"), ("Blue", "https://cdn/blue.png")] (by decide)
  exact ⟨h.1, h.2 _ rfl⟩

/-! ## `scraper_images.py`: the bounded image fetch pipeline

Paths are modelled as a parent-directory name plus a file name: one
pipeline run writes into a single folder, and `path.parent.name` is all
the code reads from the parent.  The filesystem contents of that folder
(`disk`), the module-level `_RESERVED_PATHS` set (`reserved`, cleared
at the start of each run) and the `warned` set are threaded explicitly.
Nondeterminism is supplied by a `NetEnv` oracle: per-URL network
success, the `random.choice` pick and the `OSError` outcome of each
rename call (indexed by call count), and thread completion order is an
explicit index permutation applied to the submitted futures, mirroring
`as_completed`. -/

/-- Decimal digit character. -/
def digitChar (n : Nat) : Char := Char.ofNat (48 + n)

/-- Decimal representation of a natural number (fuel-based). -/
def natToStrAux : Nat → Nat → List Char
  | 0, _ => []
  | fuel + 1, n =>
    if n < 10 then [digitChar n]
    else natToStrAux fuel (n / 10) ++ [digitChar (n % 10)]

/-- Decimal representation, as used by f-strings and `str(n)`. -/
def natToStr (n : Nat) : String := (natToStrAux (n + 1) n).asString

/-- Index of the last occurrence of `c` in `l` (Python `str.rfind`,
restricted to found/not-found). -/
def lastIdxOf (c : Char) : List Char → Option Nat
  | [] => none
  | x :: xs =>
    match lastIdxOf c xs with
    | some j => some (j + 1)
    | none => if x = c then some 0 else none

/-- `pathlib.PurePath.suffix`: the part of the name from its last dot,
or the empty string when the last dot is the first or last character or
there is no dot. -/
def pySuffix (name : String) : String :=
  match lastIdxOf '.' name.toList with
  | some i =>
    if 0 < i && i + 1 < name.toList.length then (name.toList.drop i).asString
    else ""
  | none => ""

/-- `os.path.splitext`: split at the last dot, unless every character
before it is itself a dot (leading dots are not an extension). -/
def splitext (s : String) : String × String :=
  match lastIdxOf '.' s.toList with
  | some i =>
    if (s.toList.take i).any (fun c => c ≠ '.') then
      ((s.toList.take i).asString, (s.toList.drop i).asString)
    else (s, "")
  | none => (s, "")

/-- A filesystem path restricted to one directory level: the name of
the parent directory and the file name.  The pipeline writes all files
of a run into one folder, and `path.parent.name` is the only part of
the parent the code reads. -/
structure PyPath where
  parent : String
  name : String
deriving DecidableEq, Repr

/-- The `while candidate.exists() or candidate in _RESERVED_PATHS` loop
of `_unique_path`, with fuel (the real loop terminates because the
candidates are pairwise distinct and the occupied set is finite). -/
def uniqLoop (occupied : List PyPath) (parent base ext : String) :
    Nat → PyPath → Nat → PyPath
  | 0, cand, _ => cand
  | fuel + 1, cand, counter =>
    if occupied.contains cand then
      uniqLoop occupied parent base ext fuel
        ⟨parent, base ++ "_" ++ natToStr counter ++ ext⟩ (counter + 1)
    else cand

/-- `_unique_path(folder, filename)`: find a free name by appending
`_n` before the extension, then reserve it in `_RESERVED_PATHS`
immediately.  Returns the chosen path and the new reserved set. -/
def _unique_path (disk reserved : List PyPath) (folder filename : String) :
    PyPath × List PyPath :=
  let be := splitext filename
  let cand := uniqLoop (disk ++ reserved) folder be.1 be.2
    (disk.length + reserved.length + 2) ⟨folder, filename⟩ 1
  (cand, cand :: reserved)

/-- Collapse each maximal whitespace run into a single underscore
(`re.sub(r"\s+", "_", text)`); the flag records whether the previous
character was whitespace. -/
def collapseWsAux : Bool → List Char → List Char
  | _, [] => []
  | prevWs, c :: cs =>
    if isPySpace c then
      if prevWs then collapseWsAux true cs else '_' :: collapseWsAux true cs
    else c :: collapseWsAux false cs

/-- `_clean_filename(text)`: ASCII-fold, lowercase, whitespace runs to
underscores, and keep only `[a-z0-9_-]`.  The NFD decomposition step is
not modelled: non-ASCII characters are dropped instead of being
decomposed first, which agrees with Python on ASCII input. -/
def _clean_filename (text : String) : String :=
  ((collapseWsAux false
      ((text.toList.filter (fun c => c.toNat < 128)).map Char.toLower)).filter
    (fun c => c.isLower || c.isDigit || c = '_' || c = '-')).asString

/-- `path.parent.name.replace("_", " ")`: replacing a one-character
substring is a character-wise map. -/
def productKeyOf (parent : String) : String :=
  (parent.toList.map (fun c => if c = '_' then ' ' else c)).asString

/-- Result of `_rename_with_alt`: the path the caller should use plus
the updated folder contents, reserved set and warned set. -/
structure RenameOut where
  path : PyPath
  disk : List PyPath
  reserved : List PyPath
  warned : List String
deriving DecidableEq, Repr

/-- `_rename_with_alt(path, sentences, warned)`: look the product key
(folder name with underscores turned into spaces) up in the alt-phrase
index; on a missing or empty phrase list warn once and keep the path.
Otherwise build the new name from a randomly chosen phrase
(`pickIx` oracle) plus the original suffix, resolve an on-disk
collision through `_unique_path`, and rename; an `OSError`
(`renameOk = false` oracle) keeps the original path. -/
def _rename_with_alt (disk reserved : List PyPath) (path : PyPath)
    (sentences : List (String × List String)) (warned : List String)
    (pickIx : Nat) (renameOk : Bool) : RenameOut :=
  let productKey := productKeyOf path.parent
  match sentences.lookup productKey with
  | none =>
    ⟨path, disk, reserved,
      if warned.contains productKey then warned else productKey :: warned⟩
  | some [] =>
    ⟨path, disk, reserved,
      if warned.contains productKey then warned else productKey :: warned⟩
  | some (p0 :: ps) =>
    let phrase := (p0 :: ps).getD (pickIx % (p0 :: ps).length) p0
    let filename := _clean_filename phrase ++ pySuffix path.name
    let target0 : PyPath := ⟨path.parent, filename⟩
    let tr :=
      if !(target0 == path) && disk.contains target0 then
        _unique_path disk reserved path.parent filename
      else (target0, reserved)
    if renameOk then ⟨tr.1, tr.1 :: disk.erase path, tr.2, warned⟩
    else ⟨path, disk, tr.2, warned⟩

/-- `base64.b64decode` alphabet (including padding). -/
def isB64Char (c : Char) : Bool := c.isAlphanum || c = '+' || c = '/' || c = '='

/-- Success condition of `base64.b64decode` with `validate=False`,
modelled as: after discarding non-alphabet characters the length is a
multiple of four (otherwise `binascii.Error`, e.g. invalid padding). -/
def b64Valid (s : List Char) : Bool := ((s.filter isB64Char).length % 4) == 0

/-- An `img` element as read by `_handle_image`: its `src`, `data-src`
and `data-srcset` attributes. -/
structure ImgElem where
  src : Option String
  dataSrc : Option String
  dataSrcset : Option String
deriving DecidableEq, Repr

/-- Python truthiness of an optional attribute string. -/
def truthy : Option String → Option String
  | some s => if s = "" then none else some s
  | none => none

/-- `element.get_attribute("src") or ... ("data-src") or ... ("data-srcset")`. -/
def effSrc (e : ImgElem) : Option String :=
  match truthy e.src with
  | some s => some s
  | none =>
    match truthy e.dataSrc with
    | some s => some s
    | none => truthy e.dataSrcset

/-- The srcset fallback of `_handle_image`: when the source contains
both a space and a comma, take the last comma-separated candidate,
stripped, first space-delimited token. -/
def srcsetPick (s : String) : String :=
  if s.toList.contains ' ' && s.toList.contains ',' then
    (pyHead0 (splitCh ' '
      (pyStrip (pyLast (splitCh ',' s.toList))))).asString
  else s

/-- What `_handle_image` decides about one element before touching the
filesystem: no usable source (including a malformed `data:` URI, whose
`split(",", 1)` unpacking or `[1]` indexing raises before any path is
reserved), an inline image with its extension and decodability, or a
remote URL (normalized). -/
inductive Resolved where
  | rnone
  | rinline (ext : String) (payloadOk : Bool)
  | rremote (url : String)
deriving DecidableEq, Repr

/-- Header/payload split of a `data:` URI:
`header, encoded = src.split(",", 1)` and
`ext = header.split("/")[1].split(";")[0]`. -/
def dataUriParts (s : String) : Option (String × String) :=
  let l := s.toList
  if l.contains ',' then
    let header := pyHead0 (splitCh ',' l)
    match splitCh '/' header with
    | _ :: second :: _ =>
      some ((pyHead0 (splitCh ';' second)).asString, (l.drop (header.length + 1)).asString)
    | _ => none
  else none

/-- Source-resolution part of `_handle_image`. -/
def resolveElem (e : ImgElem) : Resolved :=
  match effSrc e with
  | none => .rnone
  | some s0 =>
    let s := srcsetPick s0
    if pyStartsWith s "data:image" then
      match dataUriParts s with
      | some (ext, encoded) => .rinline ext (b64Valid encoded.toList)
      | none => .rnone
    else .rremote (normSrc s)

/-- Remote filename derivation of `_handle_image`:
`os.path.basename(src.split("?")[0])` then the size-suffix strip
(query dropped first, then the basename, unlike `_build_wp_url`). -/
def remoteFilename (u : String) : String :=
  (stripSizeSuffixL (pyLast (splitCh '/' (pyHead0 (splitCh '?' u.toList))))).asString

/-- `_handle_image(element, folder, index)`: returns the updated
`(disk, reserved)` pair and, unless the element errored, the chosen
target path plus the URL still to download (`none` for an inline image,
already written).  An invalid inline payload keeps its reservation but
writes nothing and raises (modelled as `none`), matching
`_unique_path` running before `_save_base64`. -/
def handleImage (disk reserved : List PyPath) (folder : String) (idx : Nat)
    (e : ImgElem) : (List PyPath × List PyPath) × Option (PyPath × Option String) :=
  match resolveElem e with
  | .rnone => ((disk, reserved), none)
  | .rinline ext ok =>
    let filename := "image_base64_" ++ natToStr idx ++ "." ++ ext
    let tr := _unique_path disk reserved folder filename
    if ok then ((tr.1 :: disk, tr.2), some (tr.1, none))
    else ((disk, tr.2), none)
  | .rremote u =>
    let tr := _unique_path disk reserved folder (remoteFilename u)
    ((disk, tr.2), some (tr.1, some u))

/-- Oracles for one run: network success per URL, and per rename call
(counted from 0) the `random.choice` index and whether `path.rename`
succeeds. -/
structure NetEnv where
  net : String → Bool
  altPick : Nat → Nat
  renameOk : Nat → Bool

/-- Mutable state of one `download_images` run. -/
structure DLState where
  disk : List PyPath
  reserved : List PyPath
  warned : List String
  renameCalls : Nat
  downloaded : Nat
  skipped : Nat
  firstImage : Option PyPath
  trace : List (Nat × Nat)
deriving Repr

/-- `if first_image is None: first_image = path`. -/
def keepFirst (cur : Option PyPath) (p : PyPath) : Option PyPath :=
  match cur with
  | some q => some q
  | none => some p

/-- The `path = _rename_with_alt(path, sentences, warned)` step, active
only when `use_alt_json` is set. -/
def maybeRename (cfg : NetEnv) (useAlt : Bool)
    (sentences : List (String × List String)) (st : DLState) (p : PyPath) :
    PyPath × DLState :=
  if useAlt then
    let r := _rename_with_alt st.disk st.reserved p sentences st.warned
      (cfg.altPick st.renameCalls) (cfg.renameOk st.renameCalls)
    (r.path, { st with
                 disk := r.disk
                 reserved := r.reserved
                 warned := r.warned
                 renameCalls := st.renameCalls + 1 })
  else (p, st)

/-- The submission loop of `download_images` (lines 309-330): for each
element in DOM order run `_handle_image`; a per-item exception is
logged and skipped over WITHOUT touching the skipped counter; an inline
image is finished synchronously (optional rename, `downloaded += 1`,
`first_image`, progress callback `(idx, total)`); a remote image is
submitted to the pool and collected, in submission order, into the
futures list.  The per-image `WebDriverWait` re-checks the same
attribute disjunction that already succeeded inside `_handle_image`, so
it never times out on the modelled static page and is omitted. -/
def discover (cfg : NetEnv) (useAlt : Bool) (sentences : List (String × List String))
    (folder : String) (total : Nat) :
    List ImgElem → Nat → DLState → DLState × List (Nat × PyPath × String)
  | [], _, st => (st, [])
  | e :: es, idx, st =>
    match handleImage st.disk st.reserved folder idx e with
    | ((d1, r1), none) =>
      discover cfg useAlt sentences folder total es (idx + 1)
        { st with disk := d1, reserved := r1 }
    | ((d1, r1), some (p, none)) =>
      let pr := maybeRename cfg useAlt sentences { st with disk := d1, reserved := r1 } p
      discover cfg useAlt sentences folder total es (idx + 1)
        { pr.2 with
            downloaded := pr.2.downloaded + 1
            firstImage := keepFirst pr.2.firstImage pr.1
            trace := pr.2.trace ++ [(idx, total)] }
    | ((d1, r1), some (p, some u)) =>
      let res := discover cfg useAlt sentences folder total es (idx + 1)
        { st with disk := d1, reserved := r1 }
      (res.1, (idx, p, u) :: res.2)

/-- The `as_completed` loop (lines 331-345), processing the futures in
completion order: on success the downloaded bytes are on disk, the
optional rename runs, `downloaded` increments and `first_image` is set
if still unset; on failure `skipped` increments; either way the
progress callback receives `(idx, total)` with the SUBMISSION index of
the completed future. -/
def complete (cfg : NetEnv) (useAlt : Bool) (sentences : List (String × List String))
    (total : Nat) : List (Nat × PyPath × String) → DLState → DLState
  | [], st => st
  | (idx, p, u) :: rest, st =>
    if cfg.net u then
      let pr := maybeRename cfg useAlt sentences { st with disk := p :: st.disk } p
      complete cfg useAlt sentences total rest
        { pr.2 with
            downloaded := pr.2.downloaded + 1
            firstImage := keepFirst pr.2.firstImage pr.1
            trace := pr.2.trace ++ [(idx, total)] }
    else
      complete cfg useAlt sentences total rest
        { st with skipped := st.skipped + 1, trace := st.trace ++ [(idx, total)] }

/-- Apply a completion order (a permutation of positions) to the
submitted futures, mirroring `as_completed`. -/
def reorder {α : Type} (order : List Nat) (l : List α) : List α :=
  order.filterMap (fun i => l[i]?)

/-- The product page as seen by `download_images`: whether the CSS
selector matched within the page-load wait, the three product-name
sources read by `_find_product_name`, and the matched `img` elements in
DOM order. -/
structure ImgPage where
  selectorFound : Bool
  ogTitle : Option String
  pageTitle : Option String
  h1 : Option String
  elems : List ImgElem
deriving Repr

/-- The `if text: text = text.strip(); if text:` steps of
`_find_product_name` on one candidate source. -/
def truthyTrim : Option String → Option String
  | none => none
  | some s =>
    if s = "" then none
    else if pyStripStr s = "" then none
    else some (pyStripStr s)

/-- `_find_product_name(driver)`: og:title content, then the page
title, then the first h1, else `produit_woo`. -/
def _find_product_name (page : ImgPage) : String :=
  match truthyTrim page.ogTitle with
  | some t => t
  | none =>
    match truthyTrim page.pageTitle with
    | some t => t
    | none =>
      match truthyTrim page.h1 with
      | some t => t
      | none => "produit_woo"

/-- `_safe_folder`: `re.sub(r"[^\w\-]", "_", product_name)` as the
folder name (the parent base directory never varies in a run and is
omitted). -/
def _safe_folder (productName : String) : String :=
  (productName.toList.map (fun c => if isWordChar c || c = '-' then c else '_')).asString

/-- Top-level failures of `download_images`: a non-http(s) URL
(`ValueError`) and the page-load wait timing out on the selector. -/
inductive DLErr where
  | invalidUrl
  | pageLoadTimeout
deriving DecidableEq, Repr

/-- A value of the dict returned by `download_images`. -/
inductive DictVal where
  | vfolder (folder : String)
  | vpath (p : PyPath)
  | vnone
deriving DecidableEq, Repr

/-- Observable outcome of one `download_images` run: the returned dict
plus the run observables (progress-callback trace, the counter values
the function logs, final folder contents, submitted futures). -/
structure RunOut where
  folder : String
  firstImage : Option PyPath
  downloaded : Nat
  skipped : Nat
  trace : List (Nat × Nat)
  disk : List PyPath
  futures : List (Nat × PyPath × String)
  dict : List (String × DictVal)
deriving DecidableEq, Repr

/-- `download_images(url, ...)` (lines 246-357): clear the reserved
set, check the URL scheme, wait for the selector, derive the folder
from the sanitized product name, run the submission loop and then the
completion loop, and return `{"folder": ..., "first_image": ...}`. -/
def download_images (cfg : NetEnv) (order : List Nat) (url : String)
    (page : ImgPage) (initDisk : List PyPath) (useAlt : Bool)
    (sentences : List (String × List String)) : Except DLErr RunOut :=
  if !validUrl url then .error .invalidUrl
  else if !page.selectorFound then .error .pageLoadTimeout
  else
    let folder := _safe_folder (_find_product_name page)
    let total := page.elems.length
    let st0 : DLState := ⟨initDisk, [], [], 0, 0, 0, none, []⟩
    let dres := discover cfg useAlt sentences folder total page.elems 1 st0
    let st2 := complete cfg useAlt sentences total (reorder order dres.2) dres.1
    .ok ⟨folder, st2.firstImage, st2.downloaded, st2.skipped, st2.trace, st2.disk, dres.2,
      [("folder", .vfolder folder),
       ("first_image", match st2.firstImage with | some p => .vpath p | none => .vnone)]⟩

/-! ## Invariants of the pipeline loops -/

theorem maybeRename_downloaded (cfg : NetEnv) (useAlt : Bool)
    (sentences : List (String × List String)) (st : DLState) (p : PyPath) :
    (maybeRename cfg useAlt sentences st p).2.downloaded = st.downloaded := by
  unfold maybeRename; split <;> rfl

theorem maybeRename_skipped (cfg : NetEnv) (useAlt : Bool)
    (sentences : List (String × List String)) (st : DLState) (p : PyPath) :
    (maybeRename cfg useAlt sentences st p).2.skipped = st.skipped := by
  unfold maybeRename; split <;> rfl

theorem maybeRename_trace (cfg : NetEnv) (useAlt : Bool)
    (sentences : List (String × List String)) (st : DLState) (p : PyPath) :
    (maybeRename cfg useAlt sentences st p).2.trace = st.trace := by
  unfold maybeRename; split <;> rfl

theorem maybeRename_firstImage (cfg : NetEnv) (useAlt : Bool)
    (sentences : List (String × List String)) (st : DLState) (p : PyPath) :
    (maybeRename cfg useAlt sentences st p).2.firstImage = st.firstImage := by
  unfold maybeRename; split <;> rfl

theorem maybeRename_false (cfg : NetEnv)
    (sentences : List (String × List String)) (st : DLState) (p : PyPath) :
    maybeRename cfg false sentences st p = (p, st) := by
  simp [maybeRename]

theorem complete_downloaded (cfg : NetEnv) (useAlt : Bool)
    (sentences : List (String × List String)) (total : Nat) :
    ∀ (L : List (Nat × PyPath × String)) (st : DLState),
      (complete cfg useAlt sentences total L st).downloaded
        = st.downloaded + L.countP (fun t => cfg.net t.2.2) := by
  intro L
  induction L with
  | nil => intro st; simp [complete]
  | cons hd rest ih =>
    obtain ⟨idx, p, u⟩ := hd
    intro st
    by_cases hnet : cfg.net u = true
    · simp only [complete, hnet, if_true]
      rw [ih]
      simp [maybeRename_downloaded, List.countP_cons, hnet]
      omega
    · simp only [complete, hnet]
      rw [if_neg (by simp [hnet])]
      rw [ih]
      simp [List.countP_cons, hnet]

theorem complete_skipped (cfg : NetEnv) (useAlt : Bool)
    (sentences : List (String × List String)) (total : Nat) :
    ∀ (L : List (Nat × PyPath × String)) (st : DLState),
      (complete cfg useAlt sentences total L st).skipped
        = st.skipped + L.countP (fun t => !cfg.net t.2.2) := by
  intro L
  induction L with
  | nil => intro st; simp [complete]
  | cons hd rest ih =>
    obtain ⟨idx, p, u⟩ := hd
    intro st
    by_cases hnet : cfg.net u = true
    · simp only [complete, hnet, if_true]
      rw [ih]
      simp [maybeRename_skipped, List.countP_cons, hnet]
    · simp only [complete, hnet]
      rw [if_neg (by simp [hnet])]
      rw [ih]
      simp [List.countP_cons, hnet]
      omega

theorem complete_trace (cfg : NetEnv) (useAlt : Bool)
    (sentences : List (String × List String)) (total : Nat) :
    ∀ (L : List (Nat × PyPath × String)) (st : DLState),
      (complete cfg useAlt sentences total L st).trace
        = st.trace ++ L.map (fun t => (t.1, total)) := by
  intro L
  induction L with
  | nil => intro st; simp [complete]
  | cons hd rest ih =>
    obtain ⟨idx, p, u⟩ := hd
    intro st
    by_cases hnet : cfg.net u = true
    · simp only [complete, hnet, if_true]
      rw [ih]
      simp [maybeRename_trace, List.map_cons]
    · simp only [complete, hnet]
      rw [if_neg (by simp [hnet])]
      rw [ih]
      simp

theorem complete_firstImage_some (cfg : NetEnv) (useAlt : Bool)
    (sentences : List (String × List String)) (total : Nat) :
    ∀ (L : List (Nat × PyPath × String)) (st : DLState) (q : PyPath),
      st.firstImage = some q →
      (complete cfg useAlt sentences total L st).firstImage = some q := by
  intro L
  induction L with
  | nil => intro st q hq; simpa [complete] using hq
  | cons hd rest ih =>
    obtain ⟨idx, p, u⟩ := hd
    intro st q hq
    by_cases hnet : cfg.net u = true
    · simp only [complete, hnet, if_true]
      apply ih
      show keepFirst (maybeRename cfg useAlt sentences _ p).2.firstImage _ = some q
      rw [maybeRename_firstImage]
      show keepFirst st.firstImage _ = some q
      rw [hq]
      rfl
    · simp only [complete, hnet]
      rw [if_neg (by simp [hnet])]
      exact ih _ q hq

theorem complete_firstImage_none (cfg : NetEnv)
    (sentences : List (String × List String)) (total : Nat) :
    ∀ (L : List (Nat × PyPath × String)) (st : DLState),
      st.firstImage = none →
      (complete cfg false sentences total L st).firstImage
        = ((L.filter (fun t => cfg.net t.2.2)).head?).map (fun t => t.2.1) := by
  intro L
  induction L with
  | nil => intro st h0; simpa [complete] using h0
  | cons hd rest ih =>
    obtain ⟨idx, p, u⟩ := hd
    intro st h0
    by_cases hnet : cfg.net u = true
    · simp only [complete, hnet, if_true]
      rw [maybeRename_false]
      have hset : (keepFirst ({ st with disk := p :: st.disk } : DLState).firstImage p)
          = some p := by
        show keepFirst st.firstImage p = some p
        rw [h0]
        rfl
      rw [List.filter_cons_of_pos (by simpa using hnet)]
      simp only [List.head?_cons, Option.map_some]
      apply complete_firstImage_some
      exact hset
    · simp only [complete, hnet]
      rw [if_neg (by simp [hnet])]
      rw [List.filter_cons_of_neg (by simpa using hnet)]
      exact ih _ h0

/-- The URL a given element contributes to the download pool, when it
resolves to a remote source. -/
def remoteUrl? (e : ImgElem) : Option String :=
  match resolveElem e with
  | .rremote u => some u
  | _ => none

/-- The element is an inline image whose payload decodes. -/
def isInlineOkE (e : ImgElem) : Bool :=
  match resolveElem e with
  | .rinline _ ok => ok
  | _ => false

/-- The element is remote and its download succeeds. -/
def isRemoteOkE (cfg : NetEnv) (e : ImgElem) : Bool :=
  ((remoteUrl? e).map cfg.net).getD false

/-- The element is remote and its download fails. -/
def isRemoteFailE (cfg : NetEnv) (e : ImgElem) : Bool :=
  ((remoteUrl? e).map (fun u => !cfg.net u)).getD false

theorem discover_counts (cfg : NetEnv) (useAlt : Bool)
    (sentences : List (String × List String)) (folder : String) (total : Nat) :
    ∀ (es : List ImgElem) (idx : Nat) (st : DLState),
      ((discover cfg useAlt sentences folder total es idx st).1.downloaded
          = st.downloaded + es.countP isInlineOkE)
      ∧ ((discover cfg useAlt sentences folder total es idx st).1.skipped = st.skipped)
      ∧ ((discover cfg useAlt sentences folder total es idx st).2.countP
            (fun t => cfg.net t.2.2) = es.countP (isRemoteOkE cfg))
      ∧ ((discover cfg useAlt sentences folder total es idx st).2.countP
            (fun t => !cfg.net t.2.2) = es.countP (isRemoteFailE cfg)) := by
  intro es
  induction es with
  | nil => intro idx st; simp [discover]
  | cons e rest ih =>
    intro idx st
    cases hro : resolveElem e with
    | rnone =>
      simp only [discover, handleImage, hro]
      obtain ⟨i1, i2, i3, i4⟩ :=
        ih (idx + 1) { st with disk := st.disk, reserved := st.reserved }
      rw [i1, i2, i3, i4]
      simp [List.countP_cons, isInlineOkE, isRemoteOkE, isRemoteFailE, remoteUrl?, hro]
    | rinline ext ok =>
      by_cases hok : ok = true
      · subst hok
        simp only [discover, handleImage, hro, if_true]
        obtain ⟨i1, i2, i3, i4⟩ := ih (idx + 1) _
        rw [i1, i2, i3, i4]
        simp [List.countP_cons, isInlineOkE, isRemoteOkE, isRemoteFailE, remoteUrl?, hro,
          maybeRename_downloaded, maybeRename_skipped]
        omega
      · have hok' : ok = false := by
          cases ok
          · rfl
          · exact absurd rfl hok
        subst hok'
        simp only [discover, handleImage, hro, Bool.false_eq_true, if_false]
        obtain ⟨i1, i2, i3, i4⟩ := ih (idx + 1) _
        rw [i1, i2, i3, i4]
        simp [List.countP_cons, isInlineOkE, isRemoteOkE, isRemoteFailE, remoteUrl?, hro]
    | rremote u =>
      simp only [discover, handleImage, hro]
      obtain ⟨i1, i2, i3, i4⟩ := ih (idx + 1) _
      rw [i1, i2]
      refine ⟨?_, rfl, ?_, ?_⟩
      · simp [List.countP_cons, isInlineOkE, hro]
      · rw [List.countP_cons, i3]
        simp [List.countP_cons, isRemoteOkE, remoteUrl?, hro]
      · rw [List.countP_cons, i4]
        simp [List.countP_cons, isRemoteFailE, remoteUrl?, hro]

theorem discover_trace_mem (cfg : NetEnv) (useAlt : Bool)
    (sentences : List (String × List String)) (folder : String) (total : Nat) :
    ∀ (es : List ImgElem) (idx : Nat) (st : DLState)
      (pr : Nat × Nat), pr ∈ (discover cfg useAlt sentences folder total es idx st).1.trace →
      pr ∈ st.trace ∨ (idx ≤ pr.1 ∧ pr.2 = total) := by
  intro es
  induction es with
  | nil => intro idx st pr h; exact Or.inl h
  | cons e rest ih =>
    intro idx st pr h
    cases hro : resolveElem e with
    | rnone =>
      simp only [discover, handleImage, hro] at h
      rcases ih (idx + 1) _ pr h with h1 | h1
      · exact Or.inl h1
      · exact Or.inr ⟨by omega, h1.2⟩
    | rinline ext ok =>
      by_cases hok : ok = true
      · subst hok
        simp only [discover, handleImage, hro, if_true] at h
        rcases ih (idx + 1) _ pr h with h1 | h1
        · show _ ∨ _
          rw [show ({ (maybeRename cfg useAlt sentences
                { st with disk := _, reserved := _ } _).2 with
              downloaded := _, firstImage := _,
              trace := _ } : DLState).trace
            = (maybeRename cfg useAlt sentences
                { st with disk := _, reserved := _ } _).2.trace ++ [(idx, total)]
            from rfl] at h1
          rw [maybeRename_trace] at h1
          rcases List.mem_append.mp h1 with h2 | h2
          · exact Or.inl h2
          · rcases List.mem_singleton.mp h2 with h3
            subst h3
            exact Or.inr ⟨Nat.le_refl idx, rfl⟩
        · exact Or.inr ⟨by omega, h1.2⟩
      · have hok' : ok = false := by
          cases ok
          · rfl
          · exact absurd rfl hok
        subst hok'
        simp only [discover, handleImage, hro, Bool.false_eq_true, if_false] at h
        rcases ih (idx + 1) _ pr h with h1 | h1
        · exact Or.inl h1
        · exact Or.inr ⟨by omega, h1.2⟩
    | rremote u =>
      simp only [discover, handleImage, hro] at h
      rcases ih (idx + 1) _ pr h with h1 | h1
      · exact Or.inl h1
      · exact Or.inr ⟨by omega, h1.2⟩

theorem discover_futs_ge (cfg : NetEnv) (useAlt : Bool)
    (sentences : List (String × List String)) (folder : String) (total : Nat) :
    ∀ (es : List ImgElem) (idx : Nat) (st : DLState)
      (t : Nat × PyPath × String),
      t ∈ (discover cfg useAlt sentences folder total es idx st).2 → idx ≤ t.1 := by
  intro es
  induction es with
  | nil => intro idx st t h; cases h
  | cons e rest ih =>
    intro idx st t h
    cases hro : resolveElem e with
    | rnone =>
      simp only [discover, handleImage, hro] at h
      exact Nat.le_of_succ_le (ih (idx + 1) _ t h)
    | rinline ext ok =>
      by_cases hok : ok = true
      · subst hok
        simp only [discover, handleImage, hro, if_true] at h
        exact Nat.le_of_succ_le (ih (idx + 1) _ t h)
      · have hok' : ok = false := by
          cases ok
          · rfl
          · exact absurd rfl hok
        subst hok'
        simp only [discover, handleImage, hro, Bool.false_eq_true, if_false] at h
        exact Nat.le_of_succ_le (ih (idx + 1) _ t h)
    | rremote u =>
      simp only [discover, handleImage, hro] at h
      rcases List.mem_cons.mp h with h1 | h1
      · subst h1; exact Nat.le_refl idx
      · exact Nat.le_of_succ_le (ih (idx + 1) _ t h1)

theorem discover_no_inline (cfg : NetEnv) (useAlt : Bool)
    (sentences : List (String × List String)) (folder : String) (total : Nat) :
    ∀ (es : List ImgElem) (idx : Nat) (st : DLState),
      (∀ e ∈ es, isInlineOkE e = false) →
      (discover cfg useAlt sentences folder total es idx st).1.firstImage = st.firstImage
      ∧ (discover cfg useAlt sentences folder total es idx st).1.trace = st.trace := by
  intro es
  induction es with
  | nil => intro idx st _; exact ⟨rfl, rfl⟩
  | cons e rest ih =>
    intro idx st hni
    have hrest : ∀ e ∈ rest, isInlineOkE e = false :=
      fun e he => hni e (List.mem_cons_of_mem _ he)
    cases hro : resolveElem e with
    | rnone =>
      simp only [discover, handleImage, hro]
      exact ih (idx + 1) _ hrest
    | rinline ext ok =>
      have hok : ok = false := by
        have := hni e (List.mem_cons_self e rest)
        unfold isInlineOkE at this
        rw [hro] at this
        exact this
      subst hok
      simp only [discover, handleImage, hro, Bool.false_eq_true, if_false]
      exact ih (idx + 1) _ hrest
    | rremote u =>
      simp only [discover, handleImage, hro]
      exact ih (idx + 1) _ hrest

theorem discover_all_remote (cfg : NetEnv) (useAlt : Bool)
    (sentences : List (String × List String)) (folder : String) (total : Nat) :
    ∀ (es : List ImgElem) (idx : Nat) (st : DLState),
      (∀ e ∈ es, ∃ u, resolveElem e = .rremote u ∧ cfg.net u = true) →
      (discover cfg useAlt sentences folder total es idx st).1.firstImage = st.firstImage
      ∧ (discover cfg useAlt sentences folder total es idx st).1.trace = st.trace
      ∧ (discover cfg useAlt sentences folder total es idx st).2.map (fun t => t.1)
          = (List.range es.length).map (fun i => idx + i)
      ∧ ∀ t ∈ (discover cfg useAlt sentences folder total es idx st).2,
          cfg.net t.2.2 = true := by
  intro es
  induction es with
  | nil =>
    intro idx st _
    exact ⟨rfl, rfl, rfl, fun t h => absurd h (List.not_mem_nil t)⟩
  | cons e rest ih =>
    intro idx st hall
    obtain ⟨u, hru, hnu⟩ := hall e (List.mem_cons_self e rest)
    have hrest : ∀ e ∈ rest, ∃ u, resolveElem e = .rremote u ∧ cfg.net u = true :=
      fun e he => hall e (List.mem_cons_of_mem _ he)
    obtain ⟨ih1, ih2, ih3, ih4⟩ := ih (idx + 1)
      { st with disk := st.disk,
                reserved := (_unique_path st.disk st.reserved folder (remoteFilename u)).2 }
      hrest
    simp only [discover, handleImage, hru]
    refine ⟨ih1, ih2, ?_, ?_⟩
    · rw [List.map_cons, ih3, List.length_cons, List.range_succ_eq_map,
        List.map_cons, List.map_map]
      have hmap : List.map (fun i => idx + 1 + i) (List.range rest.length)
          = List.map ((fun i => idx + i) ∘ Nat.succ) (List.range rest.length) :=
        List.map_congr_left (fun i _ => by simp [Function.comp]; omega)
      rw [hmap]
      simp
    · intro t ht
      rcases List.mem_cons.mp ht with h1 | h1
      · subst h1; exact hnu
      · exact ih4 t h1

theorem reorder_mem {α : Type} {order : List Nat} {l : List α} {x : α}
    (h : x ∈ reorder order l) : x ∈ l := by
  unfold reorder at h
  rcases List.mem_filterMap.mp h with ⟨i, _, hi⟩
  exact List.getElem?_mem hi

theorem reorder_range {α : Type} (l : List α) :
    reorder (List.range l.length) l = l := by
  unfold reorder
  induction l with
  | nil => rfl
  | cons x xs ih =>
    rw [List.length_cons, List.range_succ_eq_map, List.filterMap_cons]
    simp only [List.getElem?_cons_zero, List.filterMap_map]
    rw [show ((fun i => (x :: xs)[i]?) ∘ Nat.succ) = (fun i => xs[i]?) from ?_]
    · rw [ih]
    · funext i
      simp [Function.comp]

theorem reorder_perm {α : Type} {order : List Nat} (l : List α)
    (h : order.Perm (List.range l.length)) : (reorder order l).Perm l := by
  have h2 : (reorder order l).Perm (reorder (List.range l.length) l) :=
    List.Perm.filterMap _ h
  rw [reorder_range] at h2
  exact h2

/-! ## Concrete fixtures for the pipeline claims -/

/-- Oracle where every download succeeds and every rename works. -/
def cfgAll : NetEnv := ⟨fun _ => true, fun _ => 0, fun _ => true⟩

/-- A page with one remote image. -/
def pageRemote1 : ImgPage :=
  ⟨true, some "prod", none, none, [⟨some "https://x/a.png", none, none⟩]⟩

/-- A page with an invalid inline base64 image (bad padding) followed
by a remote image. -/
def pageC8 : ImgPage :=
  ⟨true, some "prod", none, none,
   [⟨some "data:image/png;base64,aGVsbG8", none, none⟩,
    ⟨some "https://x/a.png", none, none⟩]⟩

/-- A page with two remote images with distinct filenames. -/
def pageTwo : ImgPage :=
  ⟨true, some "prod", none, none,
   [⟨some "https://x/a.png", none, none⟩, ⟨some "https://x/b.png", none, none⟩]⟩

/-- Claim C7 counterexample: the dict returned by `download_images`
holds only `folder` and `first_image`; it carries neither a
`downloaded` nor a `skipped` count (they are logged, not returned). -/
theorem c7_counterexample :
    (download_images cfgAll [0] "https://x" pageRemote1 [] false []).toOption.map
      (fun o => (o.dict.lookup "downloaded", o.dict.lookup "skipped",
        o.dict.map Prod.fst))
      = some (none, none, ["folder", "first_image"]) := by decide

/-- Claim C7 (amended): for every batch passing the top-level
preconditions (http(s) URL, selector found), `download_images` returns
a summary dict regardless of per-item failures, but that dict contains
exactly the keys `folder` and `first_image` and no counts. -/
theorem c7_amended (cfg : NetEnv) (order : List Nat) (url : String) (page : ImgPage)
    (initDisk : List PyPath) (useAlt : Bool) (sentences : List (String × List String))
    (hu : validUrl url = true) (hs : page.selectorFound = true) :
    ∃ o, download_images cfg order url page initDisk useAlt sentences = .ok o
      ∧ o.dict.map Prod.fst = ["folder", "first_image"]
      ∧ o.dict.lookup "downloaded" = none
      ∧ o.dict.lookup "skipped" = none := by
  unfold download_images
  rw [hu, hs]
  exact ⟨_, rfl, rfl, rfl, rfl⟩

/-- Witness for claim C7 (amended) at a concrete batch. -/
theorem c7_witness :
    ∃ o, download_images cfgAll [0] "https://x" pageRemote1 [] false [] = .ok o
      ∧ o.dict.map Prod.fst = ["folder", "first_image"]
      ∧ o.dict.lookup "downloaded" = none
      ∧ o.dict.lookup "skipped" = none :=
  c7_amended cfgAll [0] "https://x" pageRemote1 [] false [] (by decide) rfl

/-- Claim C8 counterexample: an invalid inline base64 image does NOT
increment the skipped counter (the submission-loop handler only logs),
while the next image of the batch still downloads: the run ends with
skipped = 0, not 1, and the remote image on disk. -/
theorem c8_counterexample :
    (download_images cfgAll [0] "https://x" pageC8 [] false []).toOption.map
        (fun o => (o.skipped, o.downloaded, o.disk))
      = some (0, 1, [⟨"prod", "a.png"⟩])
    ∧ (0 : Nat) ≠ 1 :=
  ⟨by decide, by decide⟩

/-- Claim C8 (amended): an invalid inline image is logged and skipped
over without aborting the batch and without touching either counter:
over any run, skipped counts exactly the failed remote downloads, and
downloaded counts the decodable inline images plus the successful
remote downloads — an undecodable inline image contributes to
neither. -/
theorem c8_amended (cfg : NetEnv) (order : List Nat) (url : String) (page : ImgPage)
    (initDisk : List PyPath) (useAlt : Bool) (sentences : List (String × List String))
    (o : RunOut)
    (h : download_images cfg order url page initDisk useAlt sentences = .ok o)
    (hperm : order.Perm (List.range o.futures.length)) :
    o.skipped = page.elems.countP (isRemoteFailE cfg)
    ∧ o.downloaded
        = page.elems.countP isInlineOkE + page.elems.countP (isRemoteOkE cfg) := by
  unfold download_images at h
  split at h
  · simp at h
  · split at h
    · simp at h
    · simp only [Except.ok.injEq] at h
      subst h
      obtain ⟨d1, d2, d3, d4⟩ := discover_counts cfg useAlt sentences
        (_safe_folder (_find_product_name page)) page.elems.length page.elems 1
        ⟨initDisk, [], [], 0, 0, 0, none, []⟩
      have hperm2 : order.Perm (List.range
          (discover cfg useAlt sentences (_safe_folder (_find_product_name page))
            page.elems.length page.elems 1
            ⟨initDisk, [], [], 0, 0, 0, none, []⟩).2.length) := hperm
      constructor
      · show (complete _ _ _ _ _ _).skipped = _
        rw [complete_skipped, d2,
          List.Perm.countP_eq _ (reorder_perm _ hperm2), d4]
        simp
      · show (complete _ _ _ _ _ _).downloaded = _
        rw [complete_downloaded, d1,
          List.Perm.countP_eq _ (reorder_perm _ hperm2), d3]
        simp

/-- Witness for claim C8 (amended) at the invalid-inline batch. -/
theorem c8_witness :
    (download_images cfgAll [0] "https://x" pageC8 [] false []).toOption.map
        (fun o => (o.skipped, o.downloaded))
      = some (pageC8.elems.countP (isRemoteFailE cfgAll),
          pageC8.elems.countP isInlineOkE + pageC8.elems.countP (isRemoteOkE cfgAll)) := by
  cases hrun : download_images cfgAll [0] "https://x" pageC8 [] false [] with
  | error e =>
    have h1 : (download_images cfgAll [0] "https://x" pageC8 [] false []).toOption
        = none := by rw [hrun]; rfl
    have h2 : (download_images cfgAll [0] "https://x" pageC8 [] false []).toOption
        ≠ none := by decide
    exact absurd h1 h2
  | ok o =>
    have hfut : o.futures.length = 1 := by
      have h1 : (download_images cfgAll [0] "https://x" pageC8 [] false []).toOption.map
          (fun o => o.futures.length) = some 1 := by decide
      rw [hrun] at h1
      exact Option.some.inj h1
    have h := c8_amended cfgAll [0] "https://x" pageC8 [] false [] o hrun
      (by rw [hfut]; simp [List.range_succ])
    show some (o.skipped, o.downloaded) = some _
    rw [h.1, h.2]

/-- Claim C3 counterexample: the progress-callback sequence of a
one-remote-image batch is `[(1, 1)]`: no `(0, 0)` invocation precedes
the work. -/
theorem c3_counterexample :
    (download_images cfgAll [0] "https://x" pageRemote1 [] false []).toOption.map
        (fun o => o.trace)
      = some [(1, 1)]
    ∧ ([(1, 1)] : List (Nat × Nat)).head? ≠ some (0, 0) :=
  ⟨by decide, by decide⟩

/-- Claim C3 (amended): the observer is never invoked with `(0, 0)`;
every invocation carries `(idx, total)` where `idx ≥ 1` is the
submission index of the image and `total` the number of matched
elements — so the first argument is not a completed count and is
non-decreasing only when completion order matches submission order.
When every element is a successfully downloading remote image and the
completion order equals the submission order, the sequence is exactly
`(1, total), ..., (total, total)`. -/
theorem c3_amended :
    (∀ (cfg : NetEnv) (order : List Nat) (url : String) (page : ImgPage)
        (initDisk : List PyPath) (useAlt : Bool)
        (sentences : List (String × List String)) (o : RunOut),
        download_images cfg order url page initDisk useAlt sentences = .ok o →
        ∀ pr ∈ o.trace, 1 ≤ pr.1 ∧ pr.2 = page.elems.length)
    ∧ (∀ (cfg : NetEnv) (url : String) (page : ImgPage) (initDisk : List PyPath)
        (useAlt : Bool) (sentences : List (String × List String)) (o : RunOut),
        (∀ e ∈ page.elems, ∃ u, resolveElem e = .rremote u ∧ cfg.net u = true) →
        download_images cfg (List.range page.elems.length) url page initDisk useAlt
            sentences = .ok o →
        o.trace = (List.range page.elems.length).map
            (fun i => (i + 1, page.elems.length))) := by
  constructor
  · intro cfg order url page initDisk useAlt sentences o h pr hpr
    unfold download_images at h
    split at h
    · simp at h
    · split at h
      · simp at h
      · simp only [Except.ok.injEq] at h
        subst h
        have hpr2 : pr ∈ (complete cfg useAlt sentences page.elems.length
            (reorder order (discover cfg useAlt sentences
              (_safe_folder (_find_product_name page)) page.elems.length page.elems 1
              ⟨initDisk, [], [], 0, 0, 0, none, []⟩).2)
            (discover cfg useAlt sentences (_safe_folder (_find_product_name page))
              page.elems.length page.elems 1
              ⟨initDisk, [], [], 0, 0, 0, none, []⟩).1).trace := hpr
        rw [complete_trace] at hpr2
        rcases List.mem_append.mp hpr2 with h1 | h1
        · rcases discover_trace_mem cfg useAlt sentences
            (_safe_folder (_find_product_name page)) page.elems.length page.elems 1
            ⟨initDisk, [], [], 0, 0, 0, none, []⟩ pr h1 with h2 | h2
          · exact absurd h2 (List.not_mem_nil pr)
          · exact h2
        · rcases List.mem_map.mp h1 with ⟨t, ht, hpr3⟩
          have hge := discover_futs_ge cfg useAlt sentences
            (_safe_folder (_find_product_name page)) page.elems.length page.elems 1
            ⟨initDisk, [], [], 0, 0, 0, none, []⟩ t (reorder_mem ht)
          subst hpr3
          exact ⟨hge, rfl⟩
  · intro cfg url page initDisk useAlt sentences o hall h
    unfold download_images at h
    split at h
    · simp at h
    · split at h
      · simp at h
      · simp only [Except.ok.injEq] at h
        subst h
        obtain ⟨a1, a2, a3, a4⟩ := discover_all_remote cfg useAlt sentences
          (_safe_folder (_find_product_name page)) page.elems.length page.elems 1
          ⟨initDisk, [], [], 0, 0, 0, none, []⟩ hall
        have hlen : (discover cfg useAlt sentences
            (_safe_folder (_find_product_name page)) page.elems.length page.elems 1
            ⟨initDisk, [], [], 0, 0, 0, none, []⟩).2.length = page.elems.length := by
          have h2 := congrArg List.length a3
          simpa using h2
        have hreo : reorder (List.range page.elems.length)
            (discover cfg useAlt sentences (_safe_folder (_find_product_name page))
              page.elems.length page.elems 1
              ⟨initDisk, [], [], 0, 0, 0, none, []⟩).2
            = (discover cfg useAlt sentences (_safe_folder (_find_product_name page))
              page.elems.length page.elems 1
              ⟨initDisk, [], [], 0, 0, 0, none, []⟩).2 := by
          have h0 := reorder_range (discover cfg useAlt sentences
            (_safe_folder (_find_product_name page)) page.elems.length page.elems 1
            ⟨initDisk, [], [], 0, 0, 0, none, []⟩).2
          rw [hlen] at h0
          exact h0
        show (complete _ _ _ _ _ _).trace = _
        rw [complete_trace, a2, hreo]
        show ([] : List (Nat × Nat)) ++ _ = _
        rw [List.nil_append]
        rw [show (fun t : Nat × PyPath × String => (t.1, page.elems.length))
            = ((fun k => (k, page.elems.length)) ∘ (fun t : Nat × PyPath × String => t.1))
          from rfl]
        rw [← List.map_map, a3, List.map_map]
        refine List.map_congr_left ?_
        intro i _
        simp [Function.comp]
        omega

/-- Witness for claim C3 (amended): a two-remote-image batch completed
in submission order produces exactly `[(1, 2), (2, 2)]`. -/
theorem c3_witness :
    ∃ o, download_images cfgAll (List.range 2) "https://x" pageTwo [] false []
        = .ok o
      ∧ o.trace = [(1, 2), (2, 2)] := by
  cases hrun : download_images cfgAll (List.range 2) "https://x" pageTwo [] false [] with
  | error e =>
    have h1 : (download_images cfgAll (List.range 2) "https://x" pageTwo [] false
        []).toOption = none := by rw [hrun]; rfl
    have h2 : (download_images cfgAll (List.range 2) "https://x" pageTwo [] false
        []).toOption ≠ none := by decide
    exact absurd h1 h2
  | ok o =>
    refine ⟨o, rfl, ?_⟩
    have hall : ∀ e ∈ pageTwo.elems, ∃ u, resolveElem e = .rremote u
        ∧ cfgAll.net u = true := by
      intro e he
      rcases List.mem_cons.mp he with h1 | h1
      · exact ⟨"https://x/a.png", by rw [h1]; decide, rfl⟩
      · rcases List.mem_cons.mp h1 with h2 | h2
        · exact ⟨"https://x/b.png", by rw [h2]; decide, rfl⟩
        · cases h2
    have h := c3_amended.2 cfgAll "https://x" pageTwo [] false [] o hall hrun
    rw [h]
    decide

/-- Claim C4 counterexample: two runs of the same two-remote-image
batch that differ only in completion order produce different
`first_image` values: `first_image` is anchored to completion order,
not submission order. -/
theorem c4_counterexample :
    (download_images cfgAll [1, 0] "https://x" pageTwo [] false []).toOption.map
        (fun o => o.firstImage) = some (some ⟨"prod", "b.png"⟩)
    ∧ (download_images cfgAll [0, 1] "https://x" pageTwo [] false []).toOption.map
        (fun o => o.firstImage) = some (some ⟨"prod", "a.png"⟩)
    ∧ (some (⟨"prod", "b.png"⟩ : PyPath)) ≠ some ⟨"prod", "a.png"⟩ :=
  ⟨by decide, by decide, by decide⟩

/-- Claim C4 (amended): for a batch with no decodable inline images
(no alt renaming), `first_image` is the path of the first future in
COMPLETION order whose download succeeds, so it depends on network
completion timing rather than on submission order; inline successes,
when present, are recorded during the submission loop before any
remote completion. -/
theorem c4_amended (cfg : NetEnv) (order : List Nat) (url : String) (page : ImgPage)
    (initDisk : List PyPath) (sentences : List (String × List String)) (o : RunOut)
    (h : download_images cfg order url page initDisk false sentences = .ok o)
    (hni : ∀ e ∈ page.elems, isInlineOkE e = false) :
    o.firstImage
      = ((reorder order o.futures).filter (fun t => cfg.net t.2.2)).head?.map
          (fun t => t.2.1) := by
  unfold download_images at h
  split at h
  · simp at h
  · split at h
    · simp at h
    · simp only [Except.ok.injEq] at h
      subst h
      obtain ⟨hfi, -⟩ := discover_no_inline cfg false sentences
        (_safe_folder (_find_product_name page)) page.elems.length page.elems 1
        ⟨initDisk, [], [], 0, 0, 0, none, []⟩ hni
      have h0 : (discover cfg false sentences (_safe_folder (_find_product_name page))
          page.elems.length page.elems 1
          ⟨initDisk, [], [], 0, 0, 0, none, []⟩).1.firstImage = none := hfi
      show (complete _ _ _ _ _ _).firstImage = _
      rw [complete_firstImage_none _ _ _ _ _ h0]

/-- Witness for claim C4 (amended) at the out-of-order completion. -/
theorem c4_witness :
    ∃ o, download_images cfgAll [1, 0] "https://x" pageTwo [] false [] = .ok o
      ∧ o.firstImage
          = ((reorder [1, 0] o.futures).filter
              (fun t => cfgAll.net t.2.2)).head?.map (fun t => t.2.1) := by
  cases hrun : download_images cfgAll [1, 0] "https://x" pageTwo [] false [] with
  | error e =>
    have h1 : (download_images cfgAll [1, 0] "https://x" pageTwo [] false
        []).toOption = none := by rw [hrun]; rfl
    have h2 : (download_images cfgAll [1, 0] "https://x" pageTwo [] false
        []).toOption ≠ none := by decide
    exact absurd h1 h2
  | ok o =>
    refine ⟨o, rfl, ?_⟩
    refine c4_amended cfgAll [1, 0] "https://x" pageTwo [] [] o hrun ?_
    intro e he
    rcases List.mem_cons.mp he with h1 | h1
    · rw [h1]; decide
    · rcases List.mem_cons.mp h1 with h2 | h2
      · rw [h2]; decide
      · cases h2

/-! ## Claim C10: `_rename_with_alt` never loses the file -/

theorem lastIdxOf_eq_none {c : Char} : ∀ {l : List Char}, c ∉ l → lastIdxOf c l = none := by
  intro l
  induction l with
  | nil => intro _; rfl
  | cons x xs ih =>
    intro h
    have hx : ¬ x = c := fun he => h (he ▸ List.mem_cons_self x xs)
    have hxs : c ∉ xs := fun hm => h (List.mem_cons_of_mem x hm)
    unfold lastIdxOf
    rw [ih hxs]
    simp [hx]

theorem not_mem_of_lastIdxOf_none {c : Char} :
    ∀ {l : List Char}, lastIdxOf c l = none → c ∉ l := by
  intro l
  induction l with
  | nil => intro _ h; cases h
  | cons x xs ih =>
    intro h hmem
    unfold lastIdxOf at h
    cases hr : lastIdxOf c xs with
    | some j => rw [hr] at h; cases h
    | none =>
      rw [hr] at h
      by_cases hx : x = c
      · rw [if_pos hx] at h; cases h
      · rcases List.mem_cons.mp hmem with h1 | h1
        · exact hx h1.symm
        · exact ih hr h1

theorem lastIdxOf_spec {c : Char} : ∀ {l : List Char} {i : Nat},
    lastIdxOf c l = some i →
    i < l.length ∧ l.drop i = c :: l.drop (i + 1) ∧ c ∉ l.drop (i + 1) := by
  intro l
  induction l with
  | nil => intro i h; cases h
  | cons x xs ih =>
    intro i h
    unfold lastIdxOf at h
    cases hr : lastIdxOf c xs with
    | some j =>
      rw [hr] at h
      simp only [Option.some.injEq] at h
      subst h
      obtain ⟨h1, h2, h3⟩ := ih hr
      refine ⟨by simp; omega, ?_, ?_⟩
      · show xs.drop j = c :: xs.drop (j + 1)
        exact h2
      · show c ∉ xs.drop (j + 1)
        exact h3
    | none =>
      rw [hr] at h
      by_cases hx : x = c
      · rw [if_pos hx] at h
        simp only [Option.some.injEq] at h
        subst h
        refine ⟨by simp, ?_, ?_⟩
        · show x :: xs = c :: xs.drop 0
          rw [hx, List.drop_zero]
        · show c ∉ xs.drop 0
          rw [List.drop_zero]
          exact not_mem_of_lastIdxOf_none hr
      · rw [if_neg hx] at h; cases h

theorem lastIdxOf_append_dot {A t : List Char} (hA : '.' ∉ A) (ht : '.' ∉ t) :
    lastIdxOf '.' (A ++ '.' :: t) = some A.length := by
  induction A with
  | nil =>
    show lastIdxOf '.' ('.' :: t) = some 0
    unfold lastIdxOf
    rw [lastIdxOf_eq_none ht]
    simp
  | cons a A' ih =>
    have ha : ¬ a = '.' := fun he => hA (he ▸ List.mem_cons_self a A')
    have hA' : '.' ∉ A' := fun hm => hA (List.mem_cons_of_mem a hm)
    show lastIdxOf '.' (a :: (A' ++ '.' :: t)) = some (a :: A').length
    unfold lastIdxOf
    rw [ih hA']
    simp

theorem pySuffix_no_dot {s : String} (h : '.' ∉ s.toList) : pySuffix s = "" := by
  unfold pySuffix
  rw [lastIdxOf_eq_none h]

theorem pySuffix_of_decomp {s : String} {A t : List Char}
    (hs : s.toList = A ++ '.' :: t) (hA : A ≠ []) (hAd : '.' ∉ A)
    (ht : t ≠ []) (htd : '.' ∉ t) :
    pySuffix s = ('.' :: t).asString := by
  have h1 : pySuffix s
      = if (0 < A.length && A.length + 1 < s.toList.length) = true then
          (s.toList.drop A.length).asString
        else "" := by
    unfold pySuffix
    rw [hs, lastIdxOf_append_dot hAd htd]
  rw [h1, if_pos ?hc]
  case hc =>
    rw [Bool.and_eq_true]
    refine ⟨decide_eq_true (List.length_pos.mpr hA), decide_eq_true ?_⟩
    rw [hs, List.length_append, List.length_cons]
    have := List.length_pos.mpr ht
    omega
  rw [hs, List.drop_left]

theorem pySuffix_shape (name : String) :
    pySuffix name = "" ∨
    ∃ t : List Char, t ≠ [] ∧ '.' ∉ t ∧ pySuffix name = ('.' :: t).asString := by
  cases hL : lastIdxOf '.' name.toList with
  | none =>
    left
    unfold pySuffix
    rw [hL]
  | some i =>
    have h1 : pySuffix name
        = if (0 < i && i + 1 < name.toList.length) = true then
            (name.toList.drop i).asString
          else "" := by
      unfold pySuffix
      rw [hL]
    obtain ⟨hlt, hdrop, hnod⟩ := lastIdxOf_spec hL
    by_cases hc : (0 < i && i + 1 < name.toList.length) = true
    · right
      refine ⟨name.toList.drop (i + 1), ?_, hnod, ?_⟩
      · intro hnil
        rw [Bool.and_eq_true] at hc
        have h2 := of_decide_eq_true hc.2
        have h3 : name.toList.length ≤ i + 1 := List.drop_eq_nil_iff.mp hnil
        omega
      · rw [h1, if_pos hc, hdrop]
    · left
      rw [h1, if_neg hc]

theorem splitext_no_dot {s : String} (h : '.' ∉ s.toList) : splitext s = (s, "") := by
  unfold splitext
  rw [lastIdxOf_eq_none h]

theorem splitext_of_decomp {s : String} {A t : List Char}
    (hs : s.toList = A ++ '.' :: t) (hA : A ≠ []) (hAd : '.' ∉ A) (htd : '.' ∉ t) :
    splitext s = (A.asString, ('.' :: t).asString) := by
  have h1 : splitext s
      = if (s.toList.take A.length).any (fun c => c ≠ '.') then
          ((s.toList.take A.length).asString, (s.toList.drop A.length).asString)
        else (s, "") := by
    unfold splitext
    rw [hs, lastIdxOf_append_dot hAd htd]
  rw [h1, if_pos ?hany]
  case hany =>
    rw [hs, List.take_left]
    cases A with
    | nil => exact absurd rfl hA
    | cons a A' =>
      have ha : a ≠ '.' := fun he => hAd (he ▸ List.mem_cons_self a A')
      simp [List.any_cons, ha]
  rw [hs, List.take_left, List.drop_left]

theorem digitChar_isDigit {k : Nat} (h : k < 10) : (digitChar k).isDigit = true := by
  interval_cases k <;> decide

theorem natToStrAux_digits : ∀ (fuel n : Nat), ∀ ch ∈ natToStrAux fuel n,
    ch.isDigit = true := by
  intro fuel
  induction fuel with
  | zero => intro n ch h; cases h
  | succ f ih =>
    intro n ch h
    unfold natToStrAux at h
    by_cases hn : n < 10
    · rw [if_pos hn] at h
      rcases List.mem_singleton.mp h with h1
      exact h1 ▸ digitChar_isDigit hn
    · rw [if_neg hn] at h
      rcases List.mem_append.mp h with h1 | h1
      · exact ih _ ch h1
      · rcases List.mem_singleton.mp h1 with h2
        exact h2 ▸ digitChar_isDigit (Nat.mod_lt _ (by omega))

theorem natToStr_no_dot (n : Nat) : '.' ∉ (natToStr n).toList := by
  intro h
  have h1 := natToStrAux_digits (n + 1) n '.' h
  exact absurd h1 (by decide)

theorem clean_filename_chars (s : String) :
    ∀ ch ∈ (_clean_filename s).toList,
      (ch.isLower || ch.isDigit || ch = '_' || ch = '-') = true := by
  intro ch h
  exact (List.mem_filter.mp h).2

theorem clean_filename_no_dot (s : String) : '.' ∉ (_clean_filename s).toList := by
  intro h
  have h1 := clean_filename_chars s '.' h
  exact absurd h1 (by decide)

theorem toList_ne_nil {s : String} (h : s ≠ "") : s.toList ≠ [] := by
  intro h2
  apply h
  cases s with
  | mk data =>
    show String.mk data = String.mk []
    rw [show data = [] from h2]

theorem uniqLoop_parent (occ : List PyPath) (parent base ext : String) :
    ∀ (fuel : Nat) (cand : PyPath) (counter : Nat),
      cand.parent = parent →
      (uniqLoop occ parent base ext fuel cand counter).parent = parent := by
  intro fuel
  induction fuel with
  | zero => intro cand counter h; exact h
  | succ f ih =>
    intro cand counter h
    unfold uniqLoop
    by_cases hc : occ.contains cand = true
    · rw [if_pos hc]
      exact ih _ _ rfl
    · rw [if_neg hc]
      exact h

theorem _unique_path_parent (disk reserved : List PyPath) (folder filename : String) :
    (_unique_path disk reserved folder filename).1.parent = folder :=
  uniqLoop_parent (disk ++ reserved) folder (splitext filename).1 (splitext filename).2
    (disk.length + reserved.length + 2) ⟨folder, filename⟩ 1 rfl

theorem uniqLoop_suffix (occ : List PyPath) (parent : String) (base ext : String)
    ( _hbne : base.toList ≠ []) (hbd : '.' ∉ base.toList)
    (hext : ext = "" ∨ ∃ t : List Char, t ≠ [] ∧ '.' ∉ t ∧ ext = ('.' :: t).asString) :
    ∀ (fuel : Nat) (cand : PyPath) (counter : Nat),
      pySuffix cand.name = ext →
      pySuffix (uniqLoop occ parent base ext fuel cand counter).name = ext := by
  intro fuel
  induction fuel with
  | zero => intro cand counter h; exact h
  | succ f ih =>
    intro cand counter h
    unfold uniqLoop
    by_cases hc : occ.contains cand = true
    · rw [if_pos hc]
      apply ih
      show pySuffix (base ++ "_" ++ natToStr counter ++ ext) = ext
      rcases hext with he | ⟨t, htne, htd, he⟩
      · subst he
        apply pySuffix_no_dot
        intro hmem
        rw [show (base ++ "_" ++ natToStr counter ++ "").toList
            = base.toList ++ '_' :: (natToStr counter).toList by
          show (base ++ "_" ++ natToStr counter ++ "").data = _
          simp [String.data_append]] at hmem
        rcases List.mem_append.mp hmem with h1 | h1
        · exact hbd h1
        · rcases List.mem_cons.mp h1 with h2 | h2
          · exact absurd h2 (by decide)
          · exact natToStr_no_dot counter h2
      · subst he
        refine pySuffix_of_decomp
          (A := base.toList ++ '_' :: (natToStr counter).toList) ?_ ?_ ?_ htne htd
        · show (base ++ "_" ++ natToStr counter ++ ('.' :: t).asString).data
            = (base.toList ++ '_' :: (natToStr counter).toList) ++ '.' :: t
          simp [String.data_append, List.append_assoc]
          rfl
        · simp
        · intro hmem
          rcases List.mem_append.mp hmem with h1 | h1
          · exact hbd h1
          · rcases List.mem_cons.mp h1 with h2 | h2
            · exact absurd h2 (by decide)
            · exact natToStr_no_dot counter h2
    · rw [if_neg hc]
      exact h

theorem _unique_path_suffix_nodot (disk reserved : List PyPath) (folder : String)
    {filename : String} (hfd : '.' ∉ filename.toList) (hfne : filename.toList ≠ []) :
    pySuffix (_unique_path disk reserved folder filename).1.name = "" := by
  show pySuffix (uniqLoop (disk ++ reserved) folder (splitext filename).1
      (splitext filename).2 (disk.length + reserved.length + 2)
      ⟨folder, filename⟩ 1).name = ""
  rw [splitext_no_dot hfd]
  exact uniqLoop_suffix (disk ++ reserved) folder filename "" hfne hfd (Or.inl rfl)
    (disk.length + reserved.length + 2) ⟨folder, filename⟩ 1 (pySuffix_no_dot hfd)

theorem _unique_path_suffix_dot (disk reserved : List PyPath) (folder : String)
    {filename : String} {A t : List Char}
    (hfl : filename.toList = A ++ '.' :: t) (hA : A ≠ []) (hAd : '.' ∉ A)
    (ht : t ≠ []) (htd : '.' ∉ t) :
    pySuffix (_unique_path disk reserved folder filename).1.name
      = ('.' :: t).asString := by
  show pySuffix (uniqLoop (disk ++ reserved) folder (splitext filename).1
      (splitext filename).2 (disk.length + reserved.length + 2)
      ⟨folder, filename⟩ 1).name = ('.' :: t).asString
  rw [splitext_of_decomp hfl hA hAd htd]
  refine uniqLoop_suffix (disk ++ reserved) folder A.asString (('.' :: t).asString)
    ?_ ?_ (Or.inr ⟨t, ht, htd, rfl⟩) (disk.length + reserved.length + 2)
    ⟨folder, filename⟩ 1 ?_
  · show A ≠ []
    exact hA
  · show '.' ∉ A
    exact hAd
  · exact pySuffix_of_decomp hfl hA hAd ht htd

theorem rename_eq_none {disk reserved : List PyPath} {path : PyPath}
    {sentences : List (String × List String)} {warned : List String}
    {pickIx : Nat} {renameOk : Bool}
    (hlk : sentences.lookup (productKeyOf path.parent) = none) :
    _rename_with_alt disk reserved path sentences warned pickIx renameOk
      = ⟨path, disk, reserved,
          if warned.contains (productKeyOf path.parent) then warned
          else productKeyOf path.parent :: warned⟩ := by
  unfold _rename_with_alt
  simp only [hlk]

theorem rename_eq_nil {disk reserved : List PyPath} {path : PyPath}
    {sentences : List (String × List String)} {warned : List String}
    {pickIx : Nat} {renameOk : Bool}
    (hlk : sentences.lookup (productKeyOf path.parent) = some []) :
    _rename_with_alt disk reserved path sentences warned pickIx renameOk
      = ⟨path, disk, reserved,
          if warned.contains (productKeyOf path.parent) then warned
          else productKeyOf path.parent :: warned⟩ := by
  unfold _rename_with_alt
  simp only [hlk]

theorem rename_eq_cons {disk reserved : List PyPath} {path : PyPath}
    {sentences : List (String × List String)} {warned : List String}
    {pickIx : Nat} {renameOk : Bool} {p0 : String} {ps : List String}
    (hlk : sentences.lookup (productKeyOf path.parent) = some (p0 :: ps)) :
    _rename_with_alt disk reserved path sentences warned pickIx renameOk
      = (let phrase := (p0 :: ps).getD (pickIx % (p0 :: ps).length) p0
         let filename := _clean_filename phrase ++ pySuffix path.name
         let target0 : PyPath := ⟨path.parent, filename⟩
         let tr :=
           if !(target0 == path) && disk.contains target0 then
             _unique_path disk reserved path.parent filename
           else (target0, reserved)
         if renameOk then ⟨tr.1, tr.1 :: disk.erase path, tr.2, warned⟩
         else ⟨path, disk, tr.2, warned⟩) := by
  unfold _rename_with_alt
  simp only [hlk]

/-- The replacement filename `_rename_with_alt` builds from the chosen
phrase: its sanitized form plus the original suffix. -/
def renameFilename (path : PyPath) (p0 : String) (ps : List String) (pickIx : Nat) :
    String :=
  _clean_filename ((p0 :: ps).getD (pickIx % (p0 :: ps).length) p0) ++ pySuffix path.name

/-- The target/reserved pair `_rename_with_alt` computes: the direct
target, or a `_unique_path` resolution when the target exists on disk
and differs from the source. -/
def renameTR (disk reserved : List PyPath) (path : PyPath) (fn : String) :
    PyPath × List PyPath :=
  if !((⟨path.parent, fn⟩ : PyPath) == path) && disk.contains ⟨path.parent, fn⟩ then
    _unique_path disk reserved path.parent fn
  else (⟨path.parent, fn⟩, reserved)

theorem rename_eq_found {disk reserved : List PyPath} {path : PyPath}
    {sentences : List (String × List String)} {warned : List String}
    {pickIx : Nat} {renameOk : Bool} {p0 : String} {ps : List String}
    (hlk : sentences.lookup (productKeyOf path.parent) = some (p0 :: ps)) :
    _rename_with_alt disk reserved path sentences warned pickIx renameOk
      = if renameOk then
          ⟨(renameTR disk reserved path (renameFilename path p0 ps pickIx)).1,
           (renameTR disk reserved path (renameFilename path p0 ps pickIx)).1
             :: disk.erase path,
           (renameTR disk reserved path (renameFilename path p0 ps pickIx)).2, warned⟩
        else
          ⟨path, disk,
           (renameTR disk reserved path (renameFilename path p0 ps pickIx)).2,
           warned⟩ := by
  unfold _rename_with_alt renameTR renameFilename
  simp only [hlk]

theorem renameTR_parent (disk reserved : List PyPath) (path : PyPath) (fn : String) :
    (renameTR disk reserved path fn).1.parent = path.parent := by
  unfold renameTR
  split
  · exact _unique_path_parent disk reserved path.parent fn
  · rfl

theorem renameTR_suffix (disk reserved : List PyPath) (path : PyPath) (c : String)
    (hcne : c ≠ "") (hcd : '.' ∉ c.toList) :
    pySuffix (renameTR disk reserved path (c ++ pySuffix path.name)).1.name
      = pySuffix path.name := by
  rcases pySuffix_shape path.name with hs | ⟨t, ht, htd, hs⟩
  · have hfl : (c ++ pySuffix path.name).toList = c.toList := by
      rw [hs]
      show (c ++ "").data = c.data
      simp [String.data_append]
    have hfd : '.' ∉ (c ++ pySuffix path.name).toList := by
      rw [hfl]; exact hcd
    have hfne : (c ++ pySuffix path.name).toList ≠ [] := by
      rw [hfl]; exact toList_ne_nil hcne
    have h1 : pySuffix (renameTR disk reserved path
        (c ++ pySuffix path.name)).1.name = "" := by
      unfold renameTR
      split
      · exact _unique_path_suffix_nodot disk reserved path.parent hfd hfne
      · show pySuffix (c ++ pySuffix path.name) = ""
        exact pySuffix_no_dot hfd
    exact h1.trans hs.symm
  · have hfl : (c ++ pySuffix path.name).toList = c.toList ++ '.' :: t := by
      rw [hs]
      show (c ++ ('.' :: t).asString).data = c.data ++ '.' :: t
      simp [String.data_append]
      rfl
    have hcl : c.toList ≠ [] := toList_ne_nil hcne
    have h1 : pySuffix (renameTR disk reserved path
        (c ++ pySuffix path.name)).1.name = ('.' :: t).asString := by
      unfold renameTR
      split
      · exact _unique_path_suffix_dot disk reserved path.parent hfl hcl hcd ht htd
      · show pySuffix (c ++ pySuffix path.name) = ('.' :: t).asString
        exact pySuffix_of_decomp hfl hcl hcd ht htd
    exact h1.trans hs.symm

/-- Claim C10 counterexample: with product key present, the phrase
`!!!` sanitizes to the empty string, so the file `x.png` is renamed to
the dotfile `.png`, which has no suffix in pathlib terms: the result is
neither the original path nor a path with the same file extension. -/
theorem c10_counterexample :
    (_rename_with_alt [⟨"p", "x.png"⟩] [] ⟨"p", "x.png"⟩
        [("p", ["!!!"])] [] 0 true).path = ⟨"p", ".png"⟩
    ∧ ((⟨"p", ".png"⟩ : PyPath) ≠ ⟨"p", "x.png"⟩)
    ∧ pySuffix ".png" = ""
    ∧ pySuffix "x.png" = ".png"
    ∧ (("" : String) ≠ ".png") :=
  ⟨by decide, by decide, by decide, by decide, by decide⟩

/-- Claim C10 (amended): `_rename_with_alt` always returns a path in
the same parent directory; when the product key is absent from the
index (or its phrase list is empty) or the rename raises `OSError`,
the original path is returned unchanged; and the file extension is
preserved provided the chosen phrase sanitizes to a non-empty string
(a phrase with no ASCII word characters yields an extension-only
dotfile name, see the counterexample). -/
theorem c10_amended (disk reserved : List PyPath) (path : PyPath)
    (sentences : List (String × List String)) (warned : List String)
    (pickIx : Nat) (renameOk : Bool) :
    ((_rename_with_alt disk reserved path sentences warned pickIx renameOk).path.parent
        = path.parent)
    ∧ ((sentences.lookup (productKeyOf path.parent)).getD [] = [] →
        (_rename_with_alt disk reserved path sentences warned pickIx renameOk).path
          = path)
    ∧ (renameOk = false →
        (_rename_with_alt disk reserved path sentences warned pickIx renameOk).path
          = path)
    ∧ ((∀ ph ∈ (sentences.lookup (productKeyOf path.parent)).getD [],
            _clean_filename ph ≠ "") →
        pySuffix (_rename_with_alt disk reserved path sentences warned pickIx
            renameOk).path.name = pySuffix path.name) := by
  cases hlk : sentences.lookup (productKeyOf path.parent) with
  | none =>
    rw [rename_eq_none hlk]
    exact ⟨rfl, fun _ => rfl, fun _ => rfl, fun _ => rfl⟩
  | some phl =>
    cases phl with
    | nil =>
      rw [rename_eq_nil hlk]
      exact ⟨rfl, fun _ => rfl, fun _ => rfl, fun _ => rfl⟩
    | cons p0 ps =>
      rw [rename_eq_found hlk]
      by_cases hro : renameOk = true
      · rw [if_pos hro]
        refine ⟨?_, ?_, ?_, ?_⟩
        · show (renameTR disk reserved path
              (renameFilename path p0 ps pickIx)).1.parent = path.parent
          exact renameTR_parent disk reserved path (renameFilename path p0 ps pickIx)
        · intro habs
          simp at habs
        · intro hro2
          rw [hro2] at hro
          simp at hro
        · intro hall
          simp only [Option.getD_some] at hall
          show pySuffix (renameTR disk reserved path
              (renameFilename path p0 ps pickIx)).1.name = pySuffix path.name
          unfold renameFilename
          apply renameTR_suffix
          · apply hall
            have hlt : pickIx % (p0 :: ps).length < (p0 :: ps).length :=
              Nat.mod_lt _ (by simp)
            rw [List.getD_eq_getElem (p0 :: ps) p0 hlt]
            exact List.getElem_mem hlt
          · exact clean_filename_no_dot _
      · have hro' : renameOk = false := by
          cases renameOk
          · rfl
          · exact absurd rfl hro
        subst hro'
        simp only [Bool.false_eq_true, if_false]
        exact ⟨trivial, fun _ => trivial, fun _ => trivial, fun _ => trivial⟩

/-- Witness for claim C10 (amended), exercising the collision branch:
renaming `x.png` to the taken name `my_phrase.png` resolves to
`my_phrase_1.png`, staying in the folder and keeping `.png`. -/
theorem c10_witness :
    (_rename_with_alt [⟨"p", "x.png"⟩, ⟨"p", "my_phrase.png"⟩] [] ⟨"p", "x.png"⟩
        [("p", ["My Phrase"])] [] 0 true).path.parent = "p"
    ∧ pySuffix (_rename_with_alt [⟨"p", "x.png"⟩, ⟨"p", "my_phrase.png"⟩] []
        ⟨"p", "x.png"⟩ [("p", ["My Phrase"])] [] 0 true).path.name
      = pySuffix "x.png" := by
  have h := c10_amended [⟨"p", "x.png"⟩, ⟨"p", "my_phrase.png"⟩] [] ⟨"p", "x.png"⟩
    [("p", ["My Phrase"])] [] 0 true
  exact ⟨h.1, h.2.2.2 (by decide)⟩
